import Mathlib

/-!
Verification development for the x5 NER service core.

The Python sources under `app/service/` are shallowly embedded: Python
strings become `List Char`, Python integers at character offsets become
`Nat`, Python dictionaries become association lists preserving insertion
order (CPython dicts iterate in insertion order), and Python's stable
`sorted` becomes `List.insertionSort` with a `≤` relation on the sort key
(which is stable in the same sense).  External collaborators (the CRF
library, scikit-learn's KFold, `ast.literal_eval`, the neural NER model)
are passed in as explicit function parameters, so theorems quantify over
their behaviour.
-/

/-- Python strings are modelled as lists of characters. -/
abbrev Str := List Char

/-- Embedding of Python `s.split('-', 1)`: `none` when `s` contains no
dash (Python returns a one-element list), otherwise the parts before and
after the first dash. -/
def splitOnce : Str → Option (Str × Str)
  | [] => none
  | c :: cs =>
    if c = '-' then some ([], cs)
    else match splitOnce cs with
      | none => none
      | some (a, b) => some (c :: a, b)

/-- `Span` from `app/service/rules.py`: a dataclass with fields
`start`, `end`, `entity`, `text`.  The Python field `end` is named `stop`
here because `end` is a Lean keyword. -/
structure Span where
  start : Nat
  stop : Nat
  entity : Str
  text : Str
deriving DecidableEq, Repr

/-- `ProcessedSpan` from `app/service/postprocess.py` (fields
`start`, `end`, `entity`, `text`; `end` is renamed `stop`). -/
structure ProcessedSpan where
  start : Nat
  stop : Nat
  entity : Str
  text : Str
deriving DecidableEq, Repr

/-- `PostProcessor._spans_overlap`:
`not (span1.end <= span2.start or span2.end <= span1.start)`. -/
def spans_overlap (s1 s2 : Span) : Prop :=
  ¬ (s1.stop ≤ s2.start ∨ s2.stop ≤ s1.start)

instance (s1 s2 : Span) : Decidable (spans_overlap s1 s2) := by
  unfold spans_overlap; exact inferInstance

/-- The flattening step inside `PostProcessor._get_entity_priority` and
`PostProcessor.validate_bio_sequence`:
`entity.split('-', 1)[1] if '-' in entity else entity`. -/
def flatEntity (entity : Str) : Str :=
  match splitOnce entity with
  | some (_, rest) => rest
  | none => entity

/-- `PostProcessor.ENTITY_PRIORITIES` with the `.get(entity_type, 0)`
default. -/
def entityPriorityTable (e : Str) : Nat :=
  if e = "PERCENT".data then 4
  else if e = "VOLUME".data then 3
  else if e = "BRAND".data then 2
  else if e = "TYPE".data then 1
  else 0

/-- `PostProcessor._get_entity_priority`. -/
def get_entity_priority (entity : Str) : Nat :=
  entityPriorityTable (flatEntity entity)

/-- One iteration of the sweep loop in `PostProcessor.resolve_conflicts`:
scan the accepted list for the first overlapping span; on a conflict
replace it when the new span's priority is strictly greater
(`list.remove` removes the first value-equal element, which for the
first overlapping span is that span itself), otherwise drop the new
span; with no conflict append the new span. -/
def resolve_step (acc : List Span) (c : Span) : List Span :=
  match acc.find? (fun e => decide (spans_overlap c e)) with
  | none => acc ++ [c]
  | some p =>
    if get_entity_priority p.entity < get_entity_priority c.entity then
      acc.erase p ++ [c]
    else acc

/-- `PostProcessor.resolve_conflicts`: sort candidates by `start`
(Python `sorted` is stable; `insertionSort` on `≤` of the key is the
same stable sort) and sweep. -/
def resolve_conflicts (spans : List Span) : List Span :=
  (List.insertionSort (fun a b : Span => a.start ≤ b.start) spans).foldl resolve_step []

/-- `PostProcessor._spans_adjacent`: `span1.end == span2.start`. -/
def spans_adjacent (s1 s2 : Span) : Prop := s1.stop = s2.start

instance (s1 s2 : Span) : Decidable (spans_adjacent s1 s2) := by
  unfold spans_adjacent; exact inferInstance

/-- The dict-of-lists update inside `validate_bio_sequence`: CPython
dicts keep keys in insertion order, so grouping is an association list
where a new key is appended at the end and an existing key's list grows
at its end. -/
def addToGroup (groups : List (Str × List Span)) (key : Str) (sp : Span) :
    List (Str × List Span) :=
  match groups with
  | [] => [(key, [sp])]
  | (k, l) :: rest =>
    if k = key then (k, l ++ [sp]) :: rest
    else (k, l) :: addToGroup rest key sp

/-- The `entity_groups` dict built by `validate_bio_sequence`. -/
def entityGroups (spans : List Span) : List (Str × List Span) :=
  spans.foldl (fun gs sp => addToGroup gs (flatEntity sp.entity) sp) []

/-- The `bio_tag` computed in the loop of `validate_bio_sequence`:
`B-<E>` when `i == 0` (no predecessor) or the predecessor is not
adjacent, else `I-<E>`. -/
def bioTagOf (ent : Str) (prev : Option Span) (sp : Span) : Str :=
  match prev with
  | none => 'B' :: '-' :: ent
  | some p => if spans_adjacent p sp then 'I' :: '-' :: ent else 'B' :: '-' :: ent

/-- The inner loop of `validate_bio_sequence` over one sorted group:
`prev` is `sorted_spans[i-1]` (`none` at `i = 0`). -/
def tagGroup (ent : Str) : Option Span → List Span → List ProcessedSpan
  | _, [] => []
  | prev, sp :: rest =>
    ⟨sp.start, sp.stop, bioTagOf ent prev sp, sp.text⟩ :: tagGroup ent (some sp) rest

/-- `PostProcessor.validate_bio_sequence`. -/
def validate_bio_sequence (spans : List Span) : List ProcessedSpan :=
  ((entityGroups spans).map
    (fun g => tagGroup g.1 none (List.insertionSort (fun a b : Span => a.start ≤ b.start) g.2))).flatten

/-- `PostProcessor.process_spans`: resolve conflicts, validate BIO,
sort by start (stable). -/
def process_spans (spans : List Span) : List ProcessedSpan :=
  List.insertionSort (fun a b : ProcessedSpan => a.start ≤ b.start)
    (validate_bio_sequence (resolve_conflicts spans))

section ResolveConflicts

instance : IsTotal Span (fun a b : Span => a.start ≤ b.start) :=
  ⟨fun a b => Nat.le_total a.start b.start⟩

instance : IsTrans Span (fun a b : Span => a.start ≤ b.start) :=
  ⟨fun _ _ _ h1 h2 => Nat.le_trans h1 h2⟩

/-- Among mutually non-overlapping accepted spans that all start no
later than the incoming span `c`, at most one span can overlap `c`;
hence after erasing the first overlapping span nothing left overlaps
`c`. -/
theorem no_second_overlap {acc : List Span} {c p : Span}
    (hpw : List.Pairwise (fun a b => ¬ spans_overlap a b) acc)
    (hst : ∀ e ∈ acc, e.start ≤ c.start)
    (hfind : acc.find? (fun e => decide (spans_overlap c e)) = some p) :
    ∀ e ∈ acc.erase p, ¬ spans_overlap c e := by
  have hp_mem : p ∈ acc := List.mem_of_find?_eq_some hfind
  have hp_ov : spans_overlap c p := by
    have := List.find?_some hfind
    simpa using this
  obtain ⟨l1, l2, hnl1, hdecomp, herase⟩ := List.exists_erase_eq hp_mem
  rw [herase]
  intro e he hov
  have hep : e ∈ acc := by
    rw [hdecomp]
    rcases List.mem_append.1 he with h | h
    · exact List.mem_append.2 (Or.inl h)
    · exact List.mem_append.2 (Or.inr (List.mem_cons_of_mem _ h))
  have h1 : e.start ≤ c.start := hst e hep
  have h2 : p.start ≤ c.start := hst p hp_mem
  have hov_ep : spans_overlap e p := by
    unfold spans_overlap at *; omega
  have hov_pe : spans_overlap p e := by
    unfold spans_overlap at *; omega
  rw [hdecomp, List.pairwise_append] at hpw
  obtain ⟨_, hpw2, hcross⟩ := hpw
  rcases List.mem_append.1 he with h | h
  · exact hcross e h p (List.mem_cons_self _ _) hov_ep
  · exact (List.pairwise_cons.1 hpw2).1 e h hov_pe

/-- One sweep step preserves mutual non-overlap and the start bound. -/
theorem resolve_step_inv {acc : List Span} {c : Span}
    (hpw : List.Pairwise (fun a b => ¬ spans_overlap a b) acc)
    (hst : ∀ e ∈ acc, e.start ≤ c.start) :
    List.Pairwise (fun a b => ¬ spans_overlap a b) (resolve_step acc c) ∧
      ∀ e ∈ resolve_step acc c, e.start ≤ c.start := by
  unfold resolve_step
  cases hfind : acc.find? (fun e => decide (spans_overlap c e)) with
  | none =>
    have hno : ∀ e ∈ acc, ¬ spans_overlap c e := by
      intro e he
      have := List.find?_eq_none.1 hfind e he
      simpa using this
    constructor
    · rw [List.pairwise_append]
      refine ⟨hpw, List.pairwise_singleton _ _, ?_⟩
      intro a ha b hb
      have hb' : b = c := List.mem_singleton.1 hb
      subst hb'
      intro hab
      exact hno a ha (by unfold spans_overlap at *; omega)
    · intro e he
      rcases List.mem_append.1 he with h | h
      · exact hst e h
      · rw [List.mem_singleton.1 h]
  | some p =>
    by_cases hpr : get_entity_priority p.entity < get_entity_priority c.entity
    · simp only [if_pos hpr]
      have hno := no_second_overlap hpw hst hfind
      constructor
      · rw [List.pairwise_append]
        refine ⟨hpw.sublist (List.erase_sublist p acc), List.pairwise_singleton _ _, ?_⟩
        intro a ha b hb
        have hb' : b = c := List.mem_singleton.1 hb
        subst hb'
        intro hab
        exact hno a ha (by unfold spans_overlap at *; omega)
      · intro e he
        rcases List.mem_append.1 he with h | h
        · exact hst e ((List.erase_sublist p acc).mem h)
        · rw [List.mem_singleton.1 h]
    · simp only [if_neg hpr]
      exact ⟨hpw, hst⟩

/-- The sweep over a start-sorted candidate list keeps the accepted set
mutually non-overlapping. -/
theorem resolve_fold_inv :
    ∀ (l acc : List Span),
      List.Sorted (fun a b : Span => a.start ≤ b.start) l →
      List.Pairwise (fun a b => ¬ spans_overlap a b) acc →
      (∀ e ∈ acc, ∀ c ∈ l, e.start ≤ c.start) →
      List.Pairwise (fun a b => ¬ spans_overlap a b) (l.foldl resolve_step acc) := by
  intro l
  induction l with
  | nil => intro acc _ hpw _; exact hpw
  | cons c rest ih =>
    intro acc hsorted hpw hst
    rw [List.sorted_cons] at hsorted
    obtain ⟨hc_le, hsorted'⟩ := hsorted
    have hst_c : ∀ e ∈ acc, e.start ≤ c.start := fun e he => hst e he c (List.mem_cons_self _ _)
    obtain ⟨hpw', hbound⟩ := resolve_step_inv hpw hst_c
    simp only [List.foldl_cons]
    exact ih _ hsorted' hpw'
      (fun e he c2 hc2 => Nat.le_trans (hbound e he) (hc_le c2 hc2))

end ResolveConflicts

/-- C1 (amended): `resolve_conflicts` always returns mutually
non-overlapping spans, and each sweep step follows the local
replacement rule: with no overlap against the accepted set the new span
is appended; against the first overlapping accepted span the new span
replaces it exactly when its priority is strictly greater and is
discarded otherwise.  (The original claim's global guarantee that for
any pair of overlapping candidates the survivor has strictly higher
priority fails, e.g. for two overlapping spans of equal priority.) -/
theorem C1_resolve_conflicts_amended :
    (∀ spans : List Span,
      List.Pairwise (fun a b => ¬ spans_overlap a b) (resolve_conflicts spans)) ∧
    (∀ acc c, acc.find? (fun e => decide (spans_overlap c e)) = none →
      resolve_step acc c = acc ++ [c]) ∧
    (∀ acc c p, acc.find? (fun e => decide (spans_overlap c e)) = some p →
      (get_entity_priority p.entity < get_entity_priority c.entity →
        resolve_step acc c = acc.erase p ++ [c]) ∧
      (¬ get_entity_priority p.entity < get_entity_priority c.entity →
        resolve_step acc c = acc)) := by
  refine ⟨?_, ?_, ?_⟩
  · intro spans
    apply resolve_fold_inv _ []
    · exact List.sorted_insertionSort _ spans
    · exact List.Pairwise.nil
    · intro e he; cases he
  · intro acc c hfind
    unfold resolve_step
    rw [hfind]
  · intro acc c p hfind
    constructor
    · intro hpr
      unfold resolve_step
      rw [hfind]
      simp only [if_pos hpr]
    · intro hpr
      unfold resolve_step
      rw [hfind]
      simp only [if_neg hpr]

/-- Witness for C1 at concrete inputs: a TYPE and a VOLUME candidate
overlapping, and a no-conflict append. -/
theorem C1_resolve_conflicts_witness :
    List.Pairwise (fun a b => ¬ spans_overlap a b)
      (resolve_conflicts
        [⟨0, 5, "TYPE".data, "milk".data⟩, ⟨3, 8, "VOLUME".data, "1l".data⟩]) ∧
    resolve_step [⟨0, 5, "TYPE".data, "milk".data⟩] ⟨3, 8, "VOLUME".data, "1l".data⟩ =
      List.erase [⟨0, 5, "TYPE".data, "milk".data⟩] ⟨0, 5, "TYPE".data, "milk".data⟩ ++
        [⟨3, 8, "VOLUME".data, "1l".data⟩] :=
  ⟨C1_resolve_conflicts_amended.1 _,
   (C1_resolve_conflicts_amended.2.2 _ _ _ (by decide)).1 (by decide)⟩

/-- C1 counterexample: two overlapping candidates of equal priority
(both TYPE).  Exactly one survives, yet its priority is not strictly
higher than the discarded one's, refuting the claim's pairwise strict
priority guarantee. -/
theorem C1_counterexample :
    spans_overlap ⟨0, 5, "TYPE".data, "a".data⟩ ⟨3, 8, "TYPE".data, "b".data⟩ ∧
    resolve_conflicts [⟨0, 5, "TYPE".data, "a".data⟩, ⟨3, 8, "TYPE".data, "b".data⟩] =
      [⟨0, 5, "TYPE".data, "a".data⟩] ∧
    ¬ get_entity_priority (Span.entity ⟨0, 5, "TYPE".data, "a".data⟩) >
        get_entity_priority (Span.entity ⟨3, 8, "TYPE".data, "b".data⟩) := by
  decide

section ValidateBio

variable {ent : Str}

/-- The computed tag is always `B-<E>` or `I-<E>` for the group entity. -/
theorem bioTagOf_cases (prev : Option Span) (sp : Span) :
    bioTagOf ent prev sp = 'B' :: '-' :: ent ∨ bioTagOf ent prev sp = 'I' :: '-' :: ent := by
  cases prev with
  | none => exact Or.inl rfl
  | some p =>
    rw [show bioTagOf ent (some p) sp =
      if spans_adjacent p sp then 'I' :: '-' :: ent else 'B' :: '-' :: ent from rfl]
    by_cases h : spans_adjacent p sp
    · rw [if_pos h]; exact Or.inr rfl
    · rw [if_neg h]; exact Or.inl rfl

/-- An `I-` tag is only computed when the predecessor exists and is
exactly adjacent. -/
theorem bioTagOf_I {prev : Option Span} {sp : Span} {e : Str}
    (h : bioTagOf ent prev sp = 'I' :: '-' :: e) :
    ∃ p, prev = some p ∧ spans_adjacent p sp := by
  cases prev with
  | none =>
    have h2 : ('B' : Char) :: '-' :: ent = 'I' :: '-' :: e := h
    injection h2 with h1 _
    exact absurd h1 (by decide)
  | some p =>
    rw [show bioTagOf ent (some p) sp =
      if spans_adjacent p sp then 'I' :: '-' :: ent else 'B' :: '-' :: ent from rfl] at h
    by_cases hadj : spans_adjacent p sp
    · exact ⟨p, rfl, hadj⟩
    · rw [if_neg hadj] at h
      injection h with h1 _
      exact absurd h1 (by decide)

/-- Every span emitted for a group carries that group's entity with a
`B-` or `I-` tag. -/
theorem tagGroup_entity :
    ∀ (l : List Span) (prev : Option Span) (o : ProcessedSpan),
      o ∈ tagGroup ent prev l →
      o.entity = 'B' :: '-' :: ent ∨ o.entity = 'I' :: '-' :: ent := by
  intro l
  induction l with
  | nil => intro prev o ho; cases ho
  | cons sp rest ih =>
    intro prev o ho
    rcases List.mem_cons.1 ho with rfl | ho
    · exact bioTagOf_cases prev sp
    · exact ih (some sp) o ho

/-- An `I-` tagged output of a group either has an adjacent predecessor
among the group's outputs, or the state span passed in is adjacent. -/
theorem tagGroup_I_mem :
    ∀ (l : List Span) (prev : Option Span) (o : ProcessedSpan) (e : Str),
      o ∈ tagGroup ent prev l → o.entity = 'I' :: '-' :: e →
      (∃ o2 ∈ tagGroup ent prev l,
        (o2.entity = 'B' :: '-' :: e ∨ o2.entity = 'I' :: '-' :: e) ∧ o2.stop = o.start) ∨
      (∃ p, prev = some p ∧ p.stop = o.start) := by
  intro l
  induction l with
  | nil => intro prev o e ho; cases ho
  | cons sp rest ih =>
    intro prev o e ho hoI
    have hent_eq : ent = e := by
      rcases @tagGroup_entity ent (sp :: rest) prev o ho with h | h
      · rw [hoI] at h
        injection h with h1 _
        exact absurd h1 (by decide)
      · rw [hoI] at h
        injection h with _ h2
        injection h2 with _ h3
        exact h3.symm
    subst hent_eq
    rcases List.mem_cons.1 ho with rfl | ho
    · have hI : bioTagOf ent prev sp = 'I' :: '-' :: ent := hoI
      obtain ⟨p, rfl, hadj⟩ := bioTagOf_I hI
      exact Or.inr ⟨p, rfl, hadj⟩
    · rcases ih (some sp) o ent ho hoI with hleft | hright
      · obtain ⟨o2, ho2, hprop⟩ := hleft
        exact Or.inl ⟨o2, List.mem_cons_of_mem _ ho2, hprop⟩
      · obtain ⟨p, hp, hstop⟩ := hright
        injection hp with h
        subst h
        left
        refine ⟨⟨sp.start, sp.stop, bioTagOf ent prev sp, sp.text⟩,
          List.mem_cons_self _ _, bioTagOf_cases prev sp, hstop⟩

end ValidateBio

/-- C8: `validate_bio_sequence` groups accepted spans by flattened
entity, sorts each group by start, gives `B-<E>` to the first span of a
group and to any span not exactly adjacent to its predecessor
(predecessor character end = own start) and `I-<E>` otherwise; in
particular the spans `(0,3,"B-VOLUME")` and `(4,6,"I-VOLUME")` both
come out as `B-VOLUME`, and every `I-<E>` output has an adjacent
same-entity output span ending at its start. -/
theorem C8_validate_bio_sequence :
    (validate_bio_sequence
        [⟨0, 3, "B-VOLUME".data, "500".data⟩, ⟨4, 6, "I-VOLUME".data, "ml".data⟩] =
      [⟨0, 3, "B-VOLUME".data, "500".data⟩, ⟨4, 6, "B-VOLUME".data, "ml".data⟩]) ∧
    (∀ (spans : List Span) (o : ProcessedSpan) (e : Str),
      o ∈ validate_bio_sequence spans → o.entity = 'I' :: '-' :: e →
      ∃ o2 ∈ validate_bio_sequence spans,
        (o2.entity = 'B' :: '-' :: e ∨ o2.entity = 'I' :: '-' :: e) ∧ o2.stop = o.start) := by
  constructor
  · decide
  · intro spans o e ho hoI
    unfold validate_bio_sequence at ho
    rw [List.mem_flatten] at ho
    obtain ⟨gl, hgl, hogl⟩ := ho
    rw [List.mem_map] at hgl
    obtain ⟨g, hg, rfl⟩ := hgl
    rcases tagGroup_I_mem _ none o e hogl hoI with hleft | hright
    · obtain ⟨o2, ho2, hprop⟩ := hleft
      refine ⟨o2, ?_, hprop⟩
      unfold validate_bio_sequence
      rw [List.mem_flatten]
      exact ⟨_, List.mem_map.2 ⟨g, hg, rfl⟩, ho2⟩
    · obtain ⟨p, hp, _⟩ := hright
      cases hp

/-- Witness for C8's universally quantified part: the adjacent VOLUME
spans `(0,3)` and `(3,6)` produce a `B-VOLUME` then an `I-VOLUME`, and
the theorem yields the adjacent predecessor for the `I-VOLUME` span. -/
theorem C8_validate_bio_sequence_witness :
    ∃ o2 ∈ validate_bio_sequence
        [⟨0, 3, "VOLUME".data, "500".data⟩, ⟨3, 6, "VOLUME".data, "ml".data⟩],
      (o2.entity = 'B' :: '-' :: "VOLUME".data ∨ o2.entity = 'I' :: '-' :: "VOLUME".data) ∧
        o2.stop = ProcessedSpan.start ⟨3, 6, ('I' :: '-' :: "VOLUME".data), "ml".data⟩ :=
  C8_validate_bio_sequence.2
    [⟨0, 3, "VOLUME".data, "500".data⟩, ⟨3, 6, "VOLUME".data, "ml".data⟩]
    ⟨3, 6, ('I' :: '-' :: "VOLUME".data), "ml".data⟩ "VOLUME".data (by decide) rfl

/-- Inversion for `splitOnce`: a successful split reconstructs the
string as `before ++ '-' :: after`. -/
theorem splitOnce_eq :
    ∀ (t bi ent : Str), splitOnce t = some (bi, ent) → t = bi ++ '-' :: ent := by
  intro t
  induction t with
  | nil => intro bi ent h; cases h
  | cons c cs ih =>
    intro bi ent h
    unfold splitOnce at h
    by_cases hc : c = '-'
    · rw [if_pos hc] at h
      injection h with h1
      injection h1 with hbi hent
      subst hbi; subst hent; subst hc
      rfl
    · rw [if_neg hc] at h
      cases hsplit : splitOnce cs with
      | none => rw [hsplit] at h; cases h
      | some pr =>
        obtain ⟨a, b⟩ := pr
        rw [hsplit] at h
        injection h with h1
        injection h1 with hbi hent
        subst hbi; subst hent
        rw [ih a b hsplit]
        rfl

/-- The loop of `bio_validate` from `app/service/features.py`: `prev`
is the Python variable of the same name (one of `'O'`, `'B'`, `'I'`),
`prevEnt` is `prev_ent`.  A malformed tag (no dash) is rewritten to
`'O'` and resets the state; an `I-` tag whose predecessor state does
not match is rewritten to `B-`; a tag whose part before the dash is
neither `B` nor `I` is left unchanged and leaves the state unchanged. -/
def bioValidateGo : Char → Option Str → List Str → List Str
  | _, _, [] => []
  | prev, prevEnt, t :: rest =>
    if t = "O".data then "O".data :: bioValidateGo 'O' none rest
    else
      match splitOnce t with
      | none => "O".data :: bioValidateGo 'O' none rest
      | some (bi, ent) =>
        if bi = "B".data then t :: bioValidateGo 'B' (some ent) rest
        else if bi = "I".data then
          if (prev = 'B' ∨ prev = 'I') ∧ prevEnt = some ent then
            t :: bioValidateGo 'I' (some ent) rest
          else ('B' :: '-' :: ent) :: bioValidateGo 'B' (some ent) rest
        else t :: bioValidateGo prev prevEnt rest

/-- `bio_validate` from `app/service/features.py`: initial state
`prev = 'O'`, `prev_ent = None`. -/
def bio_validate (tags : List Str) : List Str :=
  bioValidateGo 'O' none tags

/-- The BIO succession relation of the claim: a tag may be `I-<E>` only
when the tag right before it is `B-<E>` or `I-<E>` with the same
entity. -/
def bioFollows (a b : Str) : Prop :=
  ∀ e : Str, b = 'I' :: '-' :: e → a = 'B' :: '-' :: e ∨ a = 'I' :: '-' :: e

/-- Unfolding equation for one step of the `bio_validate` loop. -/
theorem bioValidateGo_cons (prev : Char) (prevEnt : Option Str) (t : Str) (rest : List Str) :
    bioValidateGo prev prevEnt (t :: rest) =
      if t = "O".data then "O".data :: bioValidateGo 'O' none rest
      else
        match splitOnce t with
        | none => "O".data :: bioValidateGo 'O' none rest
        | some (bi, ent) =>
          if bi = "B".data then t :: bioValidateGo 'B' (some ent) rest
          else if bi = "I".data then
            if (prev = 'B' ∨ prev = 'I') ∧ prevEnt = some ent then
              t :: bioValidateGo 'I' (some ent) rest
            else ('B' :: '-' :: ent) :: bioValidateGo 'B' (some ent) rest
          else t :: bioValidateGo prev prevEnt rest := rfl

/-- Main invariant of the `bio_validate` pass, for inputs whose dashed
tags all start with `B-` or `I-`: consecutive output tags satisfy the
BIO succession relation, and the head of the output can only be an
`I-<E>` when the incoming state already records entity `E` after a `B`
or `I`. -/
theorem bioValidateGo_ok :
    ∀ (tags : List Str) (prev : Char) (prevEnt : Option Str),
      (∀ t ∈ tags, ∀ bi ent, splitOnce t = some (bi, ent) → bi = "B".data ∨ bi = "I".data) →
      List.Chain' bioFollows (bioValidateGo prev prevEnt tags) ∧
      (∀ e, (bioValidateGo prev prevEnt tags).head? = some ('I' :: '-' :: e) →
        (prev = 'B' ∨ prev = 'I') ∧ prevEnt = some e) := by
  intro tags
  induction tags with
  | nil =>
    intro prev prevEnt _
    exact ⟨List.chain'_nil, by intro e h; cases h⟩
  | cons t rest ih =>
    intro prev prevEnt hwf
    have hwf_t := hwf t (List.mem_cons_self _ _)
    have hwf_rest : ∀ u ∈ rest, ∀ bi ent, splitOnce u = some (bi, ent) →
        bi = "B".data ∨ bi = "I".data :=
      fun u hu => hwf u (List.mem_cons_of_mem _ hu)
    by_cases hO : t = "O".data
    · subst hO
      have IH := ih 'O' none hwf_rest
      rw [show bioValidateGo prev prevEnt ("O".data :: rest) =
        "O".data :: bioValidateGo 'O' none rest from rfl]
      constructor
      · rw [List.chain'_cons']
        refine ⟨?_, IH.1⟩
        intro b hb e hbe
        rw [Option.mem_def] at hb
        subst hbe
        rcases (IH.2 e hb).1 with h | h
        · exact absurd h (by decide)
        · exact absurd h (by decide)
      · intro e h
        rw [List.head?_cons] at h
        injection h with h1
        injection h1 with h2 _
        exact absurd h2 (by decide)
    · cases hsplit : splitOnce t with
      | none =>
        have IH := ih 'O' none hwf_rest
        rw [bioValidateGo_cons, if_neg hO, hsplit]
        constructor
        · rw [List.chain'_cons']
          refine ⟨?_, IH.1⟩
          intro b hb e hbe
          rw [Option.mem_def] at hb
          subst hbe
          rcases (IH.2 e hb).1 with h | h
          · exact absurd h (by decide)
          · exact absurd h (by decide)
        · intro e h
          rw [List.head?_cons] at h
          injection h with h1
          injection h1 with h2 _
          exact absurd h2 (by decide)
      | some pr =>
        obtain ⟨bi, ent⟩ := pr
        have ht := splitOnce_eq t bi ent hsplit
        rcases hwf_t bi ent hsplit with hbi | hbi
        · -- B- tag
          subst hbi
          have ht' : t = 'B' :: '-' :: ent := by rw [ht]; rfl
          subst ht'
          have IH := ih 'B' (some ent) hwf_rest
          rw [show bioValidateGo prev prevEnt (('B' :: '-' :: ent) :: rest) =
            ('B' :: '-' :: ent) :: bioValidateGo 'B' (some ent) rest from rfl]
          constructor
          · rw [List.chain'_cons']
            refine ⟨?_, IH.1⟩
            intro b hb e hbe
            rw [Option.mem_def] at hb
            subst hbe
            have hpe := (IH.2 e hb).2
            injection hpe with hpe2
            subst hpe2
            exact Or.inl rfl
          · intro e h
            rw [List.head?_cons] at h
            injection h with h1
            injection h1 with h2 _
            exact absurd h2 (by decide)
        · -- I- tag
          subst hbi
          have ht' : t = 'I' :: '-' :: ent := by rw [ht]; rfl
          subst ht'
          by_cases hvalid : (prev = 'B' ∨ prev = 'I') ∧ prevEnt = some ent
          · have IH := ih 'I' (some ent) hwf_rest
            rw [show bioValidateGo prev prevEnt (('I' :: '-' :: ent) :: rest) =
              (if (prev = 'B' ∨ prev = 'I') ∧ prevEnt = some ent then
                ('I' :: '-' :: ent) :: bioValidateGo 'I' (some ent) rest
              else ('B' :: '-' :: ent) :: bioValidateGo 'B' (some ent) rest) from rfl,
              if_pos hvalid]
            constructor
            · rw [List.chain'_cons']
              refine ⟨?_, IH.1⟩
              intro b hb e hbe
              rw [Option.mem_def] at hb
              subst hbe
              have hpe := (IH.2 e hb).2
              injection hpe with hpe2
              subst hpe2
              exact Or.inr rfl
            · intro e h
              rw [List.head?_cons] at h
              injection h with h1
              injection h1 with _ h2
              injection h2 with _ h3
              subst h3
              exact hvalid
          · have IH := ih 'B' (some ent) hwf_rest
            rw [show bioValidateGo prev prevEnt (('I' :: '-' :: ent) :: rest) =
              (if (prev = 'B' ∨ prev = 'I') ∧ prevEnt = some ent then
                ('I' :: '-' :: ent) :: bioValidateGo 'I' (some ent) rest
              else ('B' :: '-' :: ent) :: bioValidateGo 'B' (some ent) rest) from rfl,
              if_neg hvalid]
            constructor
            · rw [List.chain'_cons']
              refine ⟨?_, IH.1⟩
              intro b hb e hbe
              rw [Option.mem_def] at hb
              subst hbe
              have hpe := (IH.2 e hb).2
              injection hpe with hpe2
              subst hpe2
              exact Or.inl rfl
            · intro e h
              rw [List.head?_cons] at h
              injection h with h1
              injection h1 with h2 _
              exact absurd h2 (by decide)

/-- Each output tag of `bio_validate` is the input tag unchanged, an
`I-<E>` rewritten to `B-<E>`, or a rewrite to `O`. -/
theorem bioValidateGo_pointwise :
    ∀ (tags : List Str) (prev : Char) (prevEnt : Option Str),
      List.Forall₂
        (fun t t2 => t2 = t ∨ (∃ e, t = 'I' :: '-' :: e ∧ t2 = 'B' :: '-' :: e) ∨ t2 = "O".data)
        tags (bioValidateGo prev prevEnt tags) := by
  intro tags
  induction tags with
  | nil => intro prev prevEnt; exact List.Forall₂.nil
  | cons t rest ih =>
    intro prev prevEnt
    by_cases hO : t = "O".data
    · subst hO
      rw [show bioValidateGo prev prevEnt ("O".data :: rest) =
        "O".data :: bioValidateGo 'O' none rest from rfl]
      exact List.Forall₂.cons (Or.inl rfl) (ih 'O' none)
    · cases hsplit : splitOnce t with
      | none =>
        have heq : bioValidateGo prev prevEnt (t :: rest) =
            "O".data :: bioValidateGo 'O' none rest := by
          rw [bioValidateGo_cons, if_neg hO, hsplit]
        rw [heq]
        exact List.Forall₂.cons (Or.inr (Or.inr rfl)) (ih 'O' none)
      | some pr =>
        obtain ⟨bi, ent⟩ := pr
        have ht := splitOnce_eq t bi ent hsplit
        by_cases hbiB : bi = "B".data
        · subst hbiB
          have ht' : t = 'B' :: '-' :: ent := by rw [ht]; rfl
          subst ht'
          rw [show bioValidateGo prev prevEnt (('B' :: '-' :: ent) :: rest) =
            ('B' :: '-' :: ent) :: bioValidateGo 'B' (some ent) rest from rfl]
          exact List.Forall₂.cons (Or.inl rfl) (ih 'B' (some ent))
        · by_cases hbiI : bi = "I".data
          · subst hbiI
            have ht' : t = 'I' :: '-' :: ent := by rw [ht]; rfl
            subst ht'
            by_cases hvalid : (prev = 'B' ∨ prev = 'I') ∧ prevEnt = some ent
            · rw [show bioValidateGo prev prevEnt (('I' :: '-' :: ent) :: rest) =
                (if (prev = 'B' ∨ prev = 'I') ∧ prevEnt = some ent then
                  ('I' :: '-' :: ent) :: bioValidateGo 'I' (some ent) rest
                else ('B' :: '-' :: ent) :: bioValidateGo 'B' (some ent) rest) from rfl,
                if_pos hvalid]
              exact List.Forall₂.cons (Or.inl rfl) (ih 'I' (some ent))
            · rw [show bioValidateGo prev prevEnt (('I' :: '-' :: ent) :: rest) =
                (if (prev = 'B' ∨ prev = 'I') ∧ prevEnt = some ent then
                  ('I' :: '-' :: ent) :: bioValidateGo 'I' (some ent) rest
                else ('B' :: '-' :: ent) :: bioValidateGo 'B' (some ent) rest) from rfl,
                if_neg hvalid]
              exact List.Forall₂.cons (Or.inr (Or.inl ⟨ent, rfl, rfl⟩)) (ih 'B' (some ent))
          · have heq : bioValidateGo prev prevEnt (t :: rest) =
                t :: bioValidateGo prev prevEnt rest := by
              simp only [bioValidateGo_cons, if_neg hO, hsplit, if_neg hbiB, if_neg hbiI]
            rw [heq]
            exact List.Forall₂.cons (Or.inl rfl) (ih prev prevEnt)

/-- Well-formedness of an input tag for the amended C2: if the tag
splits at a dash, the part before the dash is `B` or `I`.  (Tags with
no dash, including `O`, are unrestricted.) -/
def WellFormedTag (t : Str) : Prop :=
  match splitOnce t with
  | some (bi, _) => bi = "B".data ∨ bi = "I".data
  | none => True

instance (t : Str) : Decidable (WellFormedTag t) := by
  unfold WellFormedTag
  cases splitOnce t with
  | none => exact inferInstanceAs (Decidable True)
  | some pr =>
    obtain ⟨bi, ent⟩ := pr
    exact inferInstanceAs (Decidable (_ ∨ _))

/-- C2 (amended): for every input tag list whose dashed tags all start
with `B-` or `I-`, the output of `bio_validate` never contains an
`I-<E>` that is not immediately preceded by `B-<E>` or `I-<E>` of the
same entity (in particular the first tag is never `I-<E>`), and every
output tag is the input tag unchanged, an invalid `I-<E>` rewritten to
`B-<E>`, or a dashless non-`O` tag rewritten to `O`.  (The original
claim, quantified over all tag lists, fails on tags such as `"X-Z"`,
which the pass leaves unchanged without updating its tracked state.) -/
theorem C2_bio_validate_amended (tags : List Str)
    (hwf : ∀ t ∈ tags, WellFormedTag t) :
    List.Chain' bioFollows (bio_validate tags) ∧
    (∀ e, (bio_validate tags).head? ≠ some ('I' :: '-' :: e)) ∧
    List.Forall₂
      (fun t t2 => t2 = t ∨ (∃ e, t = 'I' :: '-' :: e ∧ t2 = 'B' :: '-' :: e) ∨ t2 = "O".data)
      tags (bio_validate tags) := by
  have hwf2 : ∀ t ∈ tags, ∀ bi ent, splitOnce t = some (bi, ent) →
      bi = "B".data ∨ bi = "I".data := by
    intro t ht bi ent hsplit
    have h := hwf t ht
    unfold WellFormedTag at h
    rw [hsplit] at h
    exact h
  have h := bioValidateGo_ok tags 'O' none hwf2
  refine ⟨h.1, ?_, bioValidateGo_pointwise tags 'O' none⟩
  intro e hcontra
  rcases (h.2 e hcontra).1 with h1 | h1
  · exact absurd h1 (by decide)
  · exact absurd h1 (by decide)

/-- Witness for C2 at a concrete tag list containing a stray leading
`I-TYPE` and a valid `B-VOLUME I-VOLUME` run. -/
theorem C2_bio_validate_witness :
    List.Chain' bioFollows
      (bio_validate ["O".data, "I-TYPE".data, "B-VOLUME".data, "I-VOLUME".data]) ∧
    (∀ e, (bio_validate ["O".data, "I-TYPE".data, "B-VOLUME".data, "I-VOLUME".data]).head? ≠
      some ('I' :: '-' :: e)) ∧
    List.Forall₂
      (fun t t2 => t2 = t ∨ (∃ e, t = 'I' :: '-' :: e ∧ t2 = 'B' :: '-' :: e) ∨ t2 = "O".data)
      ["O".data, "I-TYPE".data, "B-VOLUME".data, "I-VOLUME".data]
      (bio_validate ["O".data, "I-TYPE".data, "B-VOLUME".data, "I-VOLUME".data]) :=
  C2_bio_validate_amended _ (by decide)

/-- C2 counterexample: on the tag list `["B-TYPE", "X-Z", "I-TYPE"]`
the pass returns the list unchanged, so the output contains an
`I-TYPE` immediately preceded by `"X-Z"`, which is neither `B-TYPE`
nor `I-TYPE`: the claimed invariant fails for arbitrary tag lists. -/
theorem C2_counterexample :
    bio_validate ["B-TYPE".data, "X-Z".data, "I-TYPE".data] =
      ["B-TYPE".data, "X-Z".data, "I-TYPE".data] ∧
    ¬ bioFollows "X-Z".data ('I' :: '-' :: "TYPE".data) := by
  constructor
  · decide
  · intro h
    rcases h "TYPE".data rfl with h1 | h1
    · exact absurd h1 (by decide)
    · exact absurd h1 (by decide)

/-- Embedding of Python regex `\s` (whitespace).  Python's `\s` is
Unicode-aware; this development models the ASCII whitespace characters,
which are the ones occurring in the repository's data. -/
def isSpaceChar (c : Char) : Bool :=
  c == ' ' || c == '\t' || c == '\n' || c == '\r' || c == '\x0b' || c == '\x0c'

/-- Embedding of Python regex `\d`: the decimal digits (modelled as the
ASCII digits `0`-`9`). -/
def isDigitChar (c : Char) : Bool := c.isDigit

/-- The character class `[A-Za-zА-Яа-яЁё]` of `tokenize_with_offsets`
(the code points of `А..Я` and `а..я` are contiguous, so the two ranges
merge into one). -/
def isRuLatLetter (c : Char) : Bool :=
  ('A' ≤ c && c ≤ 'Z') || ('a' ≤ c && c ≤ 'z') || ('А' ≤ c && c ≤ 'я') || c == 'Ё' || c == 'ё'

/-- Embedding of Python regex `\w` (word characters).  Python's `\w` is
Unicode-aware; this development models ASCII alphanumerics, the
underscore, and the Cyrillic letters that occur in the repository's
data. -/
def isWordChar (c : Char) : Bool := isDigitChar c || isRuLatLetter c || c == '_'

/-- `Token` from `app/service/tokenizer.py` (fields `text`, `start`,
`end`; `end` is renamed `stop`); the tuples returned by
`tokenize_with_offsets` in `app/service/features.py` carry the same
three components. -/
structure Token where
  text : Str
  start : Nat
  stop : Nat
deriving DecidableEq, Repr

/-- The scanning loop of `SimpleTokenizer.tokenize`
(`re.finditer(r'\S+', text)`): skip whitespace, emit each maximal
non-whitespace run with its half-open offsets.  The first argument is
recursion fuel; each step consumes at least one character, so the
wrapper's fuel (the input length) never runs out. -/
def simpleTokenizeAux : Nat → Nat → List Char → List Token
  | 0, _, _ => []
  | _, _, [] => []
  | fuel + 1, pos, c :: cs =>
    if isSpaceChar c then simpleTokenizeAux fuel (pos + 1) cs
    else
      let run := c :: cs.takeWhile (fun x => !isSpaceChar x)
      ⟨run, pos, pos + run.length⟩ ::
        simpleTokenizeAux fuel (pos + run.length) (cs.dropWhile (fun x => !isSpaceChar x))

/-- `SimpleTokenizer.tokenize` from `app/service/tokenizer.py`. -/
def simple_tokenize (text : Str) : List Token :=
  simpleTokenizeAux text.length 0 text

/-- The optional `%?` at the end of the number alternative
`\d+[.,]?\d*%?`: consume a percent sign when it is next. -/
def percentTail (l : List Char) : List Char × List Char :=
  match l with
  | c :: r => if c = '%' then (['%'], r) else ([], l)
  | [] => ([], [])

/-- The continuation of the number alternative `\d+[.,]?\d*%?` after
the leading digit run: an optional decimal separator followed by more
digits, then an optional percent sign.  Returns the consumed characters
and the rest of the input.  (All parts after `\d+` are optional, so the
greedy match never backtracks.) -/
def numTail (l : List Char) : List Char × List Char :=
  match l with
  | [] => ([], [])
  | c :: rest =>
    if c = '.' ∨ c = ',' then
      let d2 := rest.takeWhile isDigitChar
      let pt := percentTail (rest.dropWhile isDigitChar)
      (c :: (d2 ++ pt.1), pt.2)
    else if c = '%' then (['%'], rest)
    else ([], c :: rest)

theorem percentTail_length (l : List Char) : (percentTail l).2.length ≤ l.length := by
  cases l with
  | nil => exact Nat.le_refl _
  | cons c r =>
    show (if c = '%' then (['%'], r) else ([], c :: r)).2.length ≤ (c :: r).length
    by_cases h : c = '%'
    · rw [if_pos h]
      all_goals show r.length ≤ r.length + 1
      all_goals omega
    · rw [if_neg h]

theorem numTail_length (l : List Char) : (numTail l).2.length ≤ l.length := by
  cases l with
  | nil => exact Nat.le_refl _
  | cons c rest =>
    show (if c = '.' ∨ c = ',' then
        (c :: (rest.takeWhile isDigitChar ++ (percentTail (rest.dropWhile isDigitChar)).1),
          (percentTail (rest.dropWhile isDigitChar)).2)
      else if c = '%' then (['%'], rest) else ([], c :: rest)).2.length ≤ (c :: rest).length
    by_cases h1 : c = '.' ∨ c = ','
    · rw [if_pos h1]
      all_goals show (percentTail (rest.dropWhile isDigitChar)).2.length ≤ rest.length + 1
      have h2 := percentTail_length (rest.dropWhile isDigitChar)
      have h3 := (List.dropWhile_sublist (l := rest) isDigitChar).length_le
      omega
    · rw [if_neg h1]
      by_cases h2 : c = '%'
      · rw [if_pos h2]
        all_goals show rest.length ≤ rest.length + 1
        all_goals omega
      · rw [if_neg h2]

/-- The scanning loop of `tokenize_with_offsets` from
`app/service/features.py`, i.e. `re.finditer` with the pattern
`\d+[.,]?\d*%?|[A-Za-zА-Яа-яЁё]+|[^\s\w]`: at each position, a digit
starts a number token, a Latin/Cyrillic letter starts a letter-run
token, a character that is neither whitespace nor a word character is a
single-symbol token, and every other character (whitespace, underscore,
alphanumerics outside the letter class) is skipped.  The first argument
is recursion fuel; each step consumes at least one character, so the
wrapper's fuel (the input length) never runs out. -/
def tokenizeWithOffsetsAux : Nat → Nat → List Char → List Token
  | 0, _, _ => []
  | _, _, [] => []
  | fuel + 1, pos, c :: cs =>
    if isDigitChar c then
      let d1 := c :: cs.takeWhile isDigitChar
      let nt := numTail (cs.dropWhile isDigitChar)
      let tok := d1 ++ nt.1
      ⟨tok, pos, pos + tok.length⟩ :: tokenizeWithOffsetsAux fuel (pos + tok.length) nt.2
    else if isRuLatLetter c then
      let run := c :: cs.takeWhile isRuLatLetter
      ⟨run, pos, pos + run.length⟩ ::
        tokenizeWithOffsetsAux fuel (pos + run.length) (cs.dropWhile isRuLatLetter)
    else if !isSpaceChar c && !isWordChar c then
      ⟨[c], pos, pos + 1⟩ :: tokenizeWithOffsetsAux fuel (pos + 1) cs
    else
      tokenizeWithOffsetsAux fuel (pos + 1) cs

/-- `tokenize_with_offsets` from `app/service/features.py`. -/
def tokenize_with_offsets (text : Str) : List Token :=
  tokenizeWithOffsetsAux text.length 0 text

/-- Python `s.strip()`: remove leading and trailing whitespace. -/
def pyStrip (s : Str) : Str :=
  ((s.dropWhile isSpaceChar).reverse.dropWhile isSpaceChar).reverse

/-- Modelled from the spec: the fixed tagset `TAGS` imported from
`app.service.rules`, whose definition is absent from the available
sources; the specification fixes it as the nine-symbol set
{O, B-BRAND, I-BRAND, B-TYPE, I-TYPE, B-VOLUME, I-VOLUME, B-PERCENT,
I-PERCENT}. -/
def TAGS : List Str :=
  ["O".data, "B-BRAND".data, "I-BRAND".data, "B-TYPE".data, "I-TYPE".data,
   "B-VOLUME".data, "I-VOLUME".data, "B-PERCENT".data, "I-PERCENT".data]

/-- Python `t.split('-')[-1]`: the part after the last dash (the whole
string when there is no dash).  Fueled structural recursion; each step
strictly shortens the string, so the wrapper's fuel (the string length)
never runs out. -/
def splitDashLastF : Nat → Str → Str
  | 0, t => t
  | fuel + 1, t =>
    match splitOnce t with
    | none => t
    | some (_, rest) => splitDashLastF fuel rest

def splitDashLast (t : Str) : Str := splitDashLastF t.length t

/-- The span normalisation at the top of `spans_to_bio`:
`t = t.strip()`; when `t` starts with `B-` or `I-` or equals `O`, the
entity is `t.split('-')[-1]`, otherwise `t` itself. -/
def normSpanEnt (t : Str) : Str :=
  let ts := pyStrip t
  if "B-".data.isPrefixOf ts || "I-".data.isPrefixOf ts || ts = "O".data then
    splitDashLast ts
  else ts

/-- The `norm` list of `spans_to_bio`. -/
def normSpans (spans : List (Nat × Nat × Str)) : List (Nat × Nat × Str) :=
  spans.map (fun s => (s.1, s.2.1, normSpanEnt s.2.2))

/-- The marking loop of `spans_to_bio`: a token takes the entity of the
first normalised span with positive character overlap
(`max(0, min(b, sb) - max(a, sa)) > 0`; truncated `Nat` subtraction
realises the `max 0`). -/
def markOf (norm : List (Nat × Nat × Str)) (tok : Token) : Option Str :=
  (norm.find? (fun s => decide (0 < min tok.stop s.2.1 - max tok.start s.1))).map
    (fun s => s.2.2)

/-- The BIO pass of `spans_to_bio`: `prev_ent` starts as `None`; an
unmarked token gets `O` and resets `prev_ent`; a marked token gets
`I-<E>` when `prev_ent == E` and `B-<E>` otherwise. -/
def bioOfMarks : Option Str → List (Option Str) → List Str
  | _, [] => []
  | prevEnt, m :: rest =>
    match m with
    | none => "O".data :: bioOfMarks none rest
    | some ent =>
      (if prevEnt = some ent then 'I' :: '-' :: ent else 'B' :: '-' :: ent) ::
        bioOfMarks (some ent) rest

/-- The final filter of `spans_to_bio`:
`[t if t in tagset else 'O' for t in y]`. -/
def tagsetFilter (tagset : List Str) (y : List Str) : List Str :=
  y.map (fun t => if t ∈ tagset then t else "O".data)

/-- `spans_to_bio` from `app/service/features.py`. -/
def spans_to_bio (tokens : List Token) (spans : List (Nat × Nat × Str))
    (tagset : List Str := TAGS) : List Str :=
  tagsetFilter tagset (bioOfMarks none (tokens.map (markOf (normSpans spans))))

/-- C3 (amended): on the text `"молоко 1л 3.5%"` the training tokenizer
actually produces the four tokens
`["молоко" (0,6), "1" (7,8), "л" (8,9), "3.5%" (10,14)]` — the digit
and letter alternatives of the regex split `"1л"` in two — and
`spans_to_bio` with the gold spans `[(7,9,VOLUME),(10,14,PERCENT)]`
yields `["O","B-VOLUME","I-VOLUME","B-PERCENT"]`. -/
theorem C3_tokenize_example_amended :
    tokenize_with_offsets "молоко 1л 3.5%".data =
      [⟨"молоко".data, 0, 6⟩, ⟨"1".data, 7, 8⟩, ⟨"л".data, 8, 9⟩, ⟨"3.5%".data, 10, 14⟩] ∧
    spans_to_bio (tokenize_with_offsets "молоко 1л 3.5%".data)
        [(7, 9, "VOLUME".data), (10, 14, "PERCENT".data)] TAGS =
      ["O".data, "B-VOLUME".data, "I-VOLUME".data, "B-PERCENT".data] := by
  constructor
  · decide
  · decide

/-- C3 counterexample: the tokenizer does not produce the three tokens
claimed in the spec example, and the resulting BIO sequence is not
`["O","B-VOLUME","B-PERCENT"]`. -/
theorem C3_counterexample :
    tokenize_with_offsets "молоко 1л 3.5%".data ≠
      [⟨"молоко".data, 0, 6⟩, ⟨"1л".data, 7, 9⟩, ⟨"3.5%".data, 10, 14⟩] ∧
    spans_to_bio (tokenize_with_offsets "молоко 1л 3.5%".data)
        [(7, 9, "VOLUME".data), (10, 14, "PERCENT".data)] TAGS ≠
      ["O".data, "B-VOLUME".data, "B-PERCENT".data] := by
  constructor
  · decide
  · decide

section TokenizerInvariants

/-- Enumerate the characters accepted by `isSpaceChar`. -/
theorem isSpaceChar_cases {c : Char} (h : isSpaceChar c = true) :
    c = ' ' ∨ c = '\t' ∨ c = '\n' ∨ c = '\r' ∨ c = '\x0b' ∨ c = '\x0c' := by
  simp only [isSpaceChar, Bool.or_eq_true, beq_iff_eq] at h
  tauto

/-- Digits are not whitespace. -/
theorem isDigitChar_not_space {c : Char} (h : isDigitChar c = true) :
    isSpaceChar c = false := by
  by_contra hs
  rw [Bool.not_eq_false] at hs
  rcases isSpaceChar_cases hs with h1 | h1 | h1 | h1 | h1 | h1 <;>
    (subst h1; exact absurd h (by decide))

/-- Letters of the tokenizer's letter class are not whitespace. -/
theorem isRuLatLetter_not_space {c : Char} (h : isRuLatLetter c = true) :
    isSpaceChar c = false := by
  by_contra hs
  rw [Bool.not_eq_false] at hs
  rcases isSpaceChar_cases hs with h1 | h1 | h1 | h1 | h1 | h1 <;>
    (subst h1; exact absurd h (by decide))

/-- The specification a token must satisfy relative to the suffix `l`
of the input text that starts at absolute position `pos`: it starts no
earlier than `pos`, is non-empty, ends within `l`, its text is exactly
the slice of the text delimited by its offsets, and it contains no
whitespace. -/
def tokSpec (l : List Char) (pos : Nat) (t : Token) : Prop :=
  pos ≤ t.start ∧ t.start < t.stop ∧ t.stop ≤ pos + l.length ∧
  t.text = (l.drop (t.start - pos)).take (t.stop - t.start) ∧
  ∀ c ∈ t.text, isSpaceChar c = false

/-- Transfer of `tokSpec` across an already-consumed chunk of input. -/
theorem tokSpec_chunk {l run rest : List Char} {pos : Nat} {t : Token}
    (hsplit : l = run ++ rest) (h : tokSpec rest (pos + run.length) t) :
    tokSpec l pos t := by
  obtain ⟨h1, h2, h3, h4, h5⟩ := h
  refine ⟨by omega, h2, ?_, ?_, h5⟩
  · rw [hsplit, List.length_append]; omega
  · have harith : t.start - pos = run.length + (t.start - (pos + run.length)) := by omega
    rw [hsplit, harith, List.drop_append]
    exact h4

/-- A freshly emitted run token satisfies `tokSpec`. -/
theorem tokSpec_head {l run rest : List Char} {pos : Nat}
    (hsplit : l = run ++ rest) (hlen : 0 < run.length)
    (hns : ∀ c ∈ run, isSpaceChar c = false) :
    tokSpec l pos ⟨run, pos, pos + run.length⟩ := by
  refine ⟨Nat.le_refl _, by simpa using hlen, ?_, ?_, hns⟩
  · rw [hsplit, List.length_append]
    show pos + run.length ≤ pos + (run.length + rest.length)
    omega
  · show run = (l.drop (pos - pos)).take (pos + run.length - pos)
    have h1 : pos - pos = 0 := by omega
    have h2 : pos + run.length - pos = run.length := by omega
    rw [h1, h2, List.drop_zero, hsplit, List.take_left]

/-- Taking the length of a `takeWhile` from the same list recovers the
`takeWhile`. -/
theorem take_length_takeWhile (p : Char → Bool) :
    ∀ l : List Char, l.take (l.takeWhile p).length = l.takeWhile p := by
  intro l
  induction l with
  | nil => rfl
  | cons c cs ih =>
    by_cases h : p c
    · rw [List.takeWhile_cons, if_pos h, List.length_cons, List.take_succ_cons, ih]
    · rw [List.takeWhile_cons, if_neg h]
      rfl

/-- Unfolding equation for one step of the `\S+` scanning loop. -/
theorem simpleTokenizeAux_cons (fuel pos : Nat) (c : Char) (cs : List Char) :
    simpleTokenizeAux (fuel + 1) pos (c :: cs) =
      if isSpaceChar c then simpleTokenizeAux fuel (pos + 1) cs
      else
        ⟨c :: cs.takeWhile (fun x => !isSpaceChar x), pos,
          pos + (c :: cs.takeWhile (fun x => !isSpaceChar x)).length⟩ ::
          simpleTokenizeAux fuel (pos + (c :: cs.takeWhile (fun x => !isSpaceChar x)).length)
            (cs.dropWhile (fun x => !isSpaceChar x)) := rfl

/-- Every token of the whitespace-run scanner satisfies `tokSpec`. -/
theorem simpleTokenizeAux_props :
    ∀ (fuel : Nat) (l : List Char), l.length ≤ fuel → ∀ (pos : Nat) (t : Token),
      t ∈ simpleTokenizeAux fuel pos l → tokSpec l pos t := by
  intro fuel
  induction fuel with
  | zero =>
    intro l hl pos t ht
    interval_cases hlen : l.length
    · rw [List.length_eq_zero] at hlen
      subst hlen
      cases ht
  | succ fuel ih =>
    intro l hl pos t ht
    cases l with
    | nil => cases ht
    | cons c cs =>
      rw [simpleTokenizeAux_cons] at ht
      have hcs : cs.length ≤ fuel := by
        simp only [List.length_cons] at hl; omega
      by_cases hsp : isSpaceChar c = true
      · rw [if_pos hsp] at ht
        exact @tokSpec_chunk _ [c] _ _ _ rfl (ih cs hcs (pos + 1) t ht)
      · rw [if_neg hsp] at ht
        have hsplit : c :: cs =
            (c :: cs.takeWhile (fun x => !isSpaceChar x)) ++
              cs.dropWhile (fun x => !isSpaceChar x) := by
          rw [List.cons_append, List.takeWhile_append_dropWhile]
        rcases List.mem_cons.1 ht with rfl | ht
        · refine tokSpec_head hsplit (by simp) ?_
          intro x hx
          rcases List.mem_cons.1 hx with rfl | hx
          · exact Bool.not_eq_true _ ▸ hsp
          · have := List.mem_takeWhile_imp hx
            simpa using this
        · have hrest : (cs.dropWhile (fun x => !isSpaceChar x)).length ≤ fuel :=
            Nat.le_trans ((List.dropWhile_sublist _).length_le) hcs
          exact tokSpec_chunk hsplit (ih _ hrest _ t ht)

end TokenizerInvariants

/-- Tokens of the whitespace-run scanner are ordered and
non-overlapping. -/
theorem simpleTokenizeAux_pairwise :
    ∀ (fuel : Nat) (l : List Char), l.length ≤ fuel → ∀ (pos : Nat),
      List.Pairwise (fun a b : Token => a.stop ≤ b.start) (simpleTokenizeAux fuel pos l) := by
  intro fuel
  induction fuel with
  | zero =>
    intro l hl pos
    have hnil : l = [] := by
      rw [← List.length_eq_zero]; omega
    subst hnil
    exact List.Pairwise.nil
  | succ fuel ih =>
    intro l hl pos
    cases l with
    | nil => exact List.Pairwise.nil
    | cons c cs =>
      rw [simpleTokenizeAux_cons]
      have hcs : cs.length ≤ fuel := by
        simp only [List.length_cons] at hl; omega
      by_cases hsp : isSpaceChar c = true
      · rw [if_pos hsp]
        exact ih cs hcs (pos + 1)
      · rw [if_neg hsp]
        rw [List.pairwise_cons]
        constructor
        · intro b hb
          have hrest : (cs.dropWhile (fun x => !isSpaceChar x)).length ≤ fuel :=
            Nat.le_trans ((List.dropWhile_sublist _).length_le) hcs
          have := (simpleTokenizeAux_props fuel _ hrest _ b hb).1
          exact this
        · have hrest : (cs.dropWhile (fun x => !isSpaceChar x)).length ≤ fuel :=
            Nat.le_trans ((List.dropWhile_sublist _).length_le) hcs
          exact ih _ hrest _

/-- Every non-whitespace character of the input is covered by a token
of the whitespace-run scanner. -/
theorem simpleTokenizeAux_cover :
    ∀ (fuel : Nat) (l : List Char), l.length ≤ fuel → ∀ (pos i : Nat) (ch : Char),
      l[i]? = some ch → isSpaceChar ch = false →
      ∃ t ∈ simpleTokenizeAux fuel pos l, t.start ≤ pos + i ∧ pos + i < t.stop := by
  intro fuel
  induction fuel with
  | zero =>
    intro l hl pos i ch hch _
    rw [List.getElem?_eq_some] at hch
    obtain ⟨hlt, _⟩ := hch
    omega
  | succ fuel ih =>
    intro l hl pos i ch hch hns
    cases l with
    | nil => rw [List.getElem?_eq_some] at hch; obtain ⟨hlt, _⟩ := hch; simp at hlt
    | cons c cs =>
      rw [simpleTokenizeAux_cons]
      have hcs : cs.length ≤ fuel := by
        simp only [List.length_cons] at hl; omega
      by_cases hsp : isSpaceChar c = true
      · rw [if_pos hsp]
        cases i with
        | zero =>
          rw [List.getElem?_cons_zero] at hch
          injection hch with hch
          subst hch
          rw [hsp] at hns
          cases hns
        | succ j =>
          rw [List.getElem?_cons_succ] at hch
          obtain ⟨t, ht, h1, h2⟩ := ih cs hcs (pos + 1) j ch hch hns
          exact ⟨t, ht, by omega, by omega⟩
      · rw [if_neg hsp]
        by_cases hi : i < (c :: cs.takeWhile (fun x => !isSpaceChar x)).length
        · refine ⟨⟨c :: cs.takeWhile (fun x => !isSpaceChar x), pos,
            pos + (c :: cs.takeWhile (fun x => !isSpaceChar x)).length⟩,
            List.mem_cons_self _ _, ?_, ?_⟩
          · show pos ≤ pos + i
            omega
          · show pos + i < pos + (c :: cs.takeWhile (fun x => !isSpaceChar x)).length
            omega
        · have hsplit : c :: cs =
              (c :: cs.takeWhile (fun x => !isSpaceChar x)) ++
                cs.dropWhile (fun x => !isSpaceChar x) := by
            rw [List.cons_append, List.takeWhile_append_dropWhile]
          have hrest : (cs.dropWhile (fun x => !isSpaceChar x)).length ≤ fuel :=
            Nat.le_trans ((List.dropWhile_sublist _).length_le) hcs
          rw [hsplit, List.getElem?_append_right (by omega)] at hch
          obtain ⟨t, ht, h1, h2⟩ := ih _ hrest
            (pos + (c :: cs.takeWhile (fun x => !isSpaceChar x)).length)
            (i - (c :: cs.takeWhile (fun x => !isSpaceChar x)).length) ch hch hns
          refine ⟨t, List.mem_cons_of_mem _ ht, by omega, by omega⟩

theorem percentTail_append (l : List Char) :
    (percentTail l).1 ++ (percentTail l).2 = l := by
  cases l with
  | nil => rfl
  | cons c r =>
    show (if c = '%' then (['%'], r) else ([], c :: r)).1 ++
      (if c = '%' then (['%'], r) else ([], c :: r)).2 = c :: r
    by_cases h : c = '%'
    · rw [if_pos h, h]; rfl
    · rw [if_neg h]; rfl

theorem percentTail_mem {l : List Char} {x : Char} (hx : x ∈ (percentTail l).1) :
    x = '%' := by
  cases l with
  | nil => cases hx
  | cons c r =>
    by_cases h : c = '%'
    · have : (percentTail (c :: r)).1 = ['%'] := by
        show (if c = '%' then (['%'], r) else ([], c :: r)).1 = ['%']
        rw [if_pos h]
      rw [this] at hx
      exact List.mem_singleton.1 hx
    · have : (percentTail (c :: r)).1 = [] := by
        show (if c = '%' then (['%'], r) else ([], c :: r)).1 = []
        rw [if_neg h]
      rw [this] at hx
      cases hx

theorem numTail_append (l : List Char) :
    (numTail l).1 ++ (numTail l).2 = l := by
  cases l with
  | nil => rfl
  | cons c rest =>
    show (if c = '.' ∨ c = ',' then
        (c :: (rest.takeWhile isDigitChar ++ (percentTail (rest.dropWhile isDigitChar)).1),
          (percentTail (rest.dropWhile isDigitChar)).2)
      else if c = '%' then (['%'], rest) else ([], c :: rest)).1 ++
      (if c = '.' ∨ c = ',' then
        (c :: (rest.takeWhile isDigitChar ++ (percentTail (rest.dropWhile isDigitChar)).1),
          (percentTail (rest.dropWhile isDigitChar)).2)
      else if c = '%' then (['%'], rest) else ([], c :: rest)).2 = c :: rest
    by_cases h1 : c = '.' ∨ c = ','
    · rw [if_pos h1]
      show c :: (rest.takeWhile isDigitChar ++ (percentTail (rest.dropWhile isDigitChar)).1) ++
        (percentTail (rest.dropWhile isDigitChar)).2 = c :: rest
      rw [List.cons_append, List.append_assoc, percentTail_append,
        List.takeWhile_append_dropWhile]
    · rw [if_neg h1]
      by_cases h2 : c = '%'
      · rw [if_pos h2, h2]; rfl
      · rw [if_neg h2]; rfl

theorem numTail_mem_not_space {l : List Char} {x : Char} (hx : x ∈ (numTail l).1) :
    isSpaceChar x = false := by
  cases l with
  | nil => cases hx
  | cons c rest =>
    by_cases h1 : c = '.' ∨ c = ','
    · have : (numTail (c :: rest)).1 =
          c :: (rest.takeWhile isDigitChar ++ (percentTail (rest.dropWhile isDigitChar)).1) := by
        simp only [numTail, if_pos h1]
      rw [this] at hx
      rcases List.mem_cons.1 hx with rfl | hx
      · rcases h1 with h | h <;> (subst h; decide)
      · rcases List.mem_append.1 hx with hx | hx
        · exact isDigitChar_not_space (List.mem_takeWhile_imp hx)
        · rw [percentTail_mem hx]; decide
    · by_cases h2 : c = '%'
      · have : (numTail (c :: rest)).1 = ['%'] := by
          simp only [numTail, if_neg h1, if_pos h2]
        rw [this] at hx
        rw [List.mem_singleton.1 hx]
        decide
      · have : (numTail (c :: rest)).1 = [] := by
          simp only [numTail, if_neg h1, if_neg h2]
        rw [this] at hx
        cases hx

/-- Unfolding equation for one step of the training-tokenizer scanning
loop. -/
theorem tokenizeWithOffsetsAux_cons (fuel pos : Nat) (c : Char) (cs : List Char) :
    tokenizeWithOffsetsAux (fuel + 1) pos (c :: cs) =
      if isDigitChar c then
        ⟨(c :: cs.takeWhile isDigitChar) ++ (numTail (cs.dropWhile isDigitChar)).1, pos,
          pos + ((c :: cs.takeWhile isDigitChar) ++ (numTail (cs.dropWhile isDigitChar)).1).length⟩ ::
          tokenizeWithOffsetsAux fuel
            (pos + ((c :: cs.takeWhile isDigitChar) ++ (numTail (cs.dropWhile isDigitChar)).1).length)
            (numTail (cs.dropWhile isDigitChar)).2
      else if isRuLatLetter c then
        ⟨c :: cs.takeWhile isRuLatLetter, pos,
          pos + (c :: cs.takeWhile isRuLatLetter).length⟩ ::
          tokenizeWithOffsetsAux fuel (pos + (c :: cs.takeWhile isRuLatLetter).length)
            (cs.dropWhile isRuLatLetter)
      else if !isSpaceChar c && !isWordChar c then
        ⟨[c], pos, pos + 1⟩ :: tokenizeWithOffsetsAux fuel (pos + 1) cs
      else
        tokenizeWithOffsetsAux fuel (pos + 1) cs := rfl

/-- Every token of the training tokenizer satisfies `tokSpec`. -/
theorem tokenizeWithOffsetsAux_props :
    ∀ (fuel : Nat) (l : List Char), l.length ≤ fuel → ∀ (pos : Nat) (t : Token),
      t ∈ tokenizeWithOffsetsAux fuel pos l → tokSpec l pos t := by
  intro fuel
  induction fuel with
  | zero =>
    intro l hl pos t ht
    have hnil : l = [] := by
      rw [← List.length_eq_zero]; omega
    subst hnil
    cases ht
  | succ fuel ih =>
    intro l hl pos t ht
    cases l with
    | nil => cases ht
    | cons c cs =>
      rw [tokenizeWithOffsetsAux_cons] at ht
      have hcs : cs.length ≤ fuel := by
        simp only [List.length_cons] at hl; omega
      by_cases hdig : isDigitChar c = true
      · rw [if_pos hdig] at ht
        have hsplit : c :: cs =
            ((c :: cs.takeWhile isDigitChar) ++ (numTail (cs.dropWhile isDigitChar)).1) ++
              (numTail (cs.dropWhile isDigitChar)).2 := by
          rw [List.append_assoc, numTail_append, List.cons_append,
            List.takeWhile_append_dropWhile]
        have hrest : (numTail (cs.dropWhile isDigitChar)).2.length ≤ fuel :=
          Nat.le_trans (Nat.le_trans (numTail_length _)
            ((List.dropWhile_sublist _).length_le)) hcs
        rcases List.mem_cons.1 ht with rfl | ht
        · refine tokSpec_head hsplit (by simp) ?_
          intro x hx
          rcases List.mem_append.1 hx with hx | hx
          · rcases List.mem_cons.1 hx with rfl | hx
            · exact isDigitChar_not_space hdig
            · exact isDigitChar_not_space (List.mem_takeWhile_imp hx)
          · exact numTail_mem_not_space hx
        · exact tokSpec_chunk hsplit (ih _ hrest _ t ht)
      · rw [if_neg hdig] at ht
        by_cases hlet : isRuLatLetter c = true
        · rw [if_pos hlet] at ht
          have hsplit : c :: cs =
              (c :: cs.takeWhile isRuLatLetter) ++ cs.dropWhile isRuLatLetter := by
            rw [List.cons_append, List.takeWhile_append_dropWhile]
          have hrest : (cs.dropWhile isRuLatLetter).length ≤ fuel :=
            Nat.le_trans ((List.dropWhile_sublist _).length_le) hcs
          rcases List.mem_cons.1 ht with rfl | ht
          · refine tokSpec_head hsplit (by simp) ?_
            intro x hx
            rcases List.mem_cons.1 hx with rfl | hx
            · exact isRuLatLetter_not_space hlet
            · exact isRuLatLetter_not_space (List.mem_takeWhile_imp hx)
          · exact tokSpec_chunk hsplit (ih _ hrest _ t ht)
        · rw [if_neg hlet] at ht
          by_cases hpunct : (!isSpaceChar c && !isWordChar c) = true
          · rw [if_pos hpunct] at ht
            rcases List.mem_cons.1 ht with rfl | ht
            · refine @tokSpec_head _ [c] _ _ rfl (by simp) ?_
              intro x hx
              rw [List.mem_singleton.1 hx]
              rw [Bool.and_eq_true] at hpunct
              rw [Bool.not_eq_true'] at hpunct
              exact hpunct.1
            · exact @tokSpec_chunk _ [c] _ _ _ rfl (ih _ hcs _ t ht)
          · rw [if_neg hpunct] at ht
            exact @tokSpec_chunk _ [c] _ _ _ rfl (ih _ hcs _ t ht)

/-- Tokens of the training tokenizer are ordered and non-overlapping. -/
theorem tokenizeWithOffsetsAux_pairwise :
    ∀ (fuel : Nat) (l : List Char), l.length ≤ fuel → ∀ (pos : Nat),
      List.Pairwise (fun a b : Token => a.stop ≤ b.start)
        (tokenizeWithOffsetsAux fuel pos l) := by
  intro fuel
  induction fuel with
  | zero =>
    intro l hl pos
    have hnil : l = [] := by
      rw [← List.length_eq_zero]; omega
    subst hnil
    exact List.Pairwise.nil
  | succ fuel ih =>
    intro l hl pos
    cases l with
    | nil => exact List.Pairwise.nil
    | cons c cs =>
      rw [tokenizeWithOffsetsAux_cons]
      have hcs : cs.length ≤ fuel := by
        simp only [List.length_cons] at hl; omega
      by_cases hdig : isDigitChar c = true
      · rw [if_pos hdig]
        have hrest : (numTail (cs.dropWhile isDigitChar)).2.length ≤ fuel :=
          Nat.le_trans (Nat.le_trans (numTail_length _)
            ((List.dropWhile_sublist _).length_le)) hcs
        rw [List.pairwise_cons]
        exact ⟨fun b hb => (tokenizeWithOffsetsAux_props fuel _ hrest _ b hb).1,
          ih _ hrest _⟩
      · rw [if_neg hdig]
        by_cases hlet : isRuLatLetter c = true
        · rw [if_pos hlet]
          have hrest : (cs.dropWhile isRuLatLetter).length ≤ fuel :=
            Nat.le_trans ((List.dropWhile_sublist _).length_le) hcs
          rw [List.pairwise_cons]
          exact ⟨fun b hb => (tokenizeWithOffsetsAux_props fuel _ hrest _ b hb).1,
            ih _ hrest _⟩
        · rw [if_neg hlet]
          by_cases hpunct : (!isSpaceChar c && !isWordChar c) = true
          · rw [if_pos hpunct]
            rw [List.pairwise_cons]
            exact ⟨fun b hb => (tokenizeWithOffsetsAux_props fuel _ hcs _ b hb).1,
              ih _ hcs _⟩
          · rw [if_neg hpunct]
            exact ih _ hcs _

/-- C6 (amended): both tokenizers produce ordered, non-overlapping,
non-empty tokens whose `(start, stop)` offsets exactly delimit their
text in the original string and whose text contains no whitespace; the
whitespace-run inference tokenizer moreover covers every non-whitespace
character.  (The original claim's coverage guarantee fails for the
stricter training tokenizer, which silently skips word characters
matched by neither alternative, e.g. the underscore.) -/
theorem C6_tokenizers_amended :
    (∀ (text : Str) (t : Token), t ∈ simple_tokenize text →
      t.start < t.stop ∧ t.stop ≤ text.length ∧
      t.text = (text.drop t.start).take (t.stop - t.start) ∧
      ∀ c ∈ t.text, isSpaceChar c = false) ∧
    (∀ text : Str,
      List.Pairwise (fun a b : Token => a.stop ≤ b.start) (simple_tokenize text)) ∧
    (∀ (text : Str) (i : Nat) (ch : Char), text[i]? = some ch → isSpaceChar ch = false →
      ∃ t ∈ simple_tokenize text, t.start ≤ i ∧ i < t.stop) ∧
    (∀ (text : Str) (t : Token), t ∈ tokenize_with_offsets text →
      t.start < t.stop ∧ t.stop ≤ text.length ∧
      t.text = (text.drop t.start).take (t.stop - t.start) ∧
      ∀ c ∈ t.text, isSpaceChar c = false) ∧
    (∀ text : Str,
      List.Pairwise (fun a b : Token => a.stop ≤ b.start) (tokenize_with_offsets text)) := by
  refine ⟨?_, ?_, ?_, ?_, ?_⟩
  · intro text t ht
    obtain ⟨h1, h2, h3, h4, h5⟩ :=
      simpleTokenizeAux_props text.length text (Nat.le_refl _) 0 t ht
    rw [Nat.sub_zero] at h4
    exact ⟨h2, by omega, h4, h5⟩
  · intro text
    exact simpleTokenizeAux_pairwise text.length text (Nat.le_refl _) 0
  · intro text i ch hch hns
    obtain ⟨t, ht, h1, h2⟩ :=
      simpleTokenizeAux_cover text.length text (Nat.le_refl _) 0 i ch hch hns
    exact ⟨t, ht, by omega, by omega⟩
  · intro text t ht
    obtain ⟨h1, h2, h3, h4, h5⟩ :=
      tokenizeWithOffsetsAux_props text.length text (Nat.le_refl _) 0 t ht
    rw [Nat.sub_zero] at h4
    exact ⟨h2, by omega, h4, h5⟩
  · intro text
    exact tokenizeWithOffsetsAux_pairwise text.length text (Nat.le_refl _) 0

/-- Witness for C6 at concrete inputs. -/
theorem C6_tokenizers_witness :
    (∃ t ∈ simple_tokenize " a".data, t.start ≤ 1 ∧ 1 < t.stop) ∧
    List.Pairwise (fun a b : Token => a.stop ≤ b.start) (simple_tokenize "a b".data) ∧
    List.Pairwise (fun a b : Token => a.stop ≤ b.start)
      (tokenize_with_offsets "1л 3.5%".data) ∧
    (∀ c ∈ (Token.mk "3.5%".data 3 7).text, isSpaceChar c = false) :=
  ⟨C6_tokenizers_amended.2.2.1 " a".data 1 'a' (by decide) (by decide),
   C6_tokenizers_amended.2.1 "a b".data,
   C6_tokenizers_amended.2.2.2.2 "1л 3.5%".data,
   (C6_tokenizers_amended.2.2.2.1 "1л 3.5%".data ⟨"3.5%".data, 3, 7⟩ (by decide)).2.2.2⟩

/-- C6 counterexample: the underscore is a non-whitespace character,
the whitespace-run tokenizer covers it, but the training tokenizer
skips it entirely (it is a word character matched by no alternative),
so the training tokenizer does not cover every maximal non-whitespace
run. -/
theorem C6_counterexample :
    simple_tokenize "_".data = [⟨"_".data, 0, 1⟩] ∧
    tokenize_with_offsets "_".data = [] ∧
    isSpaceChar '_' = false := by
  refine ⟨?_, ?_, ?_⟩ <;> decide

section AvgMarginals

/-- The `acc[tag] += p` update on a `defaultdict(float)` modelled as an
insertion-ordered association list (a fresh key is appended at the
end, as in a CPython dict). -/
def accAdd (acc : List (Str × ℚ)) (key : Str) (v : ℚ) : List (Str × ℚ) :=
  match acc with
  | [] => [(key, v)]
  | (k, x) :: rest => if k = key then (k, x + v) :: rest else (k, x) :: accAdd rest key v

/-- The accumulation loop of `_avg_predict_marginals` over the fold
models' marginal dictionaries for one token. -/
def accumulate (dists : List (List (Str × ℚ))) : List (Str × ℚ) :=
  dists.foldl (fun acc d => d.foldl (fun a kv => accAdd a kv.1 kv.2) acc) []

/-- `sum(acc.values())`. -/
def sumValues (d : List (Str × ℚ)) : ℚ := (d.map (fun kv => kv.2)).sum

/-- The normalisation step of `_avg_predict_marginals`:
`s = sum(acc.values()) or 1.0` (Python `or` replaces a zero sum by 1)
followed by `{k: v / s for k, v in acc.items()}`. -/
def normalizeDist (acc : List (Str × ℚ)) : List (Str × ℚ) :=
  let s := if sumValues acc = 0 then 1 else sumValues acc
  acc.map (fun kv => (kv.1, kv.2 / s))

/-- `StackedCRF._avg_predict_marginals`, parametrised by the marginal
distributions the external CRF fold models return
(`predict_marginals_single`) and by the token count of the sentence:
for each token position, sum the models' per-tag probabilities and
renormalise.  Python's `probs[t]` indexing is modelled by `getD t []`,
which coincides with it whenever every model returns one distribution
per token, as the theorems hypothesise. -/
def avg_predict_marginals (probs_list : List (List (List (Str × ℚ)))) (n : Nat) :
    List (List (Str × ℚ)) :=
  (List.range n).map
    (fun t => normalizeDist (accumulate (probs_list.map (fun probs => probs.getD t []))))

theorem sumValues_accAdd (acc : List (Str × ℚ)) (key : Str) (v : ℚ) :
    sumValues (accAdd acc key v) = sumValues acc + v := by
  induction acc with
  | nil => simp [accAdd, sumValues]
  | cons kv rest ih =>
    obtain ⟨k, x⟩ := kv
    by_cases h : k = key
    · simp only [accAdd, if_pos h, sumValues, List.map_cons, List.sum_cons]
      ring
    · simp only [accAdd, if_neg h, sumValues, List.map_cons, List.sum_cons] at *
      rw [ih]
      ring

theorem sumValues_foldl (d : List (Str × ℚ)) :
    ∀ acc : List (Str × ℚ),
      sumValues (d.foldl (fun a kv => accAdd a kv.1 kv.2) acc) = sumValues acc + sumValues d := by
  induction d with
  | nil => intro acc; simp [sumValues]
  | cons kv rest ih =>
    intro acc
    simp only [List.foldl_cons]
    rw [ih, sumValues_accAdd]
    simp only [sumValues, List.map_cons, List.sum_cons]
    ring

theorem sumValues_accumulate (dists : List (List (Str × ℚ))) :
    sumValues (accumulate dists) = (dists.map sumValues).sum := by
  have hgen : ∀ (ds : List (List (Str × ℚ))) (acc : List (Str × ℚ)),
      sumValues (ds.foldl (fun a d => d.foldl (fun a2 kv => accAdd a2 kv.1 kv.2) a) acc) =
        sumValues acc + (ds.map sumValues).sum := by
    intro ds
    induction ds with
    | nil => intro acc; simp
    | cons d rest ih =>
      intro acc
      simp only [List.foldl_cons, List.map_cons, List.sum_cons]
      rw [ih, sumValues_foldl]
      ring
  unfold accumulate
  rw [hgen]
  simp [sumValues]

theorem sum_map_div (l : List ℚ) (s : ℚ) : (l.map (fun x => x / s)).sum = l.sum / s := by
  induction l with
  | nil => simp
  | cons x rest ih =>
    simp only [List.map_cons, List.sum_cons]
    rw [ih, add_div]

theorem sumValues_normalizeDist (acc : List (Str × ℚ)) (h : sumValues acc ≠ 0) :
    sumValues (normalizeDist acc) = 1 := by
  unfold normalizeDist
  rw [if_neg h]
  show ((acc.map (fun kv => (kv.1, kv.2 / sumValues acc))).map (fun kv => kv.2)).sum = 1
  rw [List.map_map]
  have : ((fun kv : Str × ℚ => kv.2) ∘ fun kv : Str × ℚ => (kv.1, kv.2 / sumValues acc)) =
      (fun x : Str × ℚ => x.2 / sumValues acc) := rfl
  rw [this]
  have h2 : (acc.map (fun x : Str × ℚ => x.2 / sumValues acc)).sum =
      ((acc.map (fun x : Str × ℚ => x.2)).map (fun x => x / sumValues acc)).sum := by
    rw [List.map_map]; rfl
  rw [h2, sum_map_div]
  exact div_self h

end AvgMarginals

/-- C7: whenever every fold model returns one genuine probability
distribution per token (each summing to 1) and there is at least one
fold model, every per-token distribution produced by
`_avg_predict_marginals` (sum the models' marginals per tag, then
renormalise) sums to exactly 1 (exact rational arithmetic stands in for
floating point, hence no tolerance is needed). -/
theorem sum_map_one {α : Type} (l : List α) : (l.map (fun _ => (1 : ℚ))).sum = l.length := by
  induction l with
  | nil => simp
  | cons x rest ih =>
    simp only [List.map_cons, List.sum_cons, ih, List.length_cons]
    push_cast
    ring

theorem C7_avg_marginals_sum_one
    (probs_list : List (List (List (Str × ℚ)))) (n : Nat)
    (hne : probs_list ≠ [])
    (hlen : ∀ probs ∈ probs_list, probs.length = n)
    (hdist : ∀ probs ∈ probs_list, ∀ d ∈ probs, sumValues d = 1) :
    ∀ d ∈ avg_predict_marginals probs_list n, sumValues d = 1 := by
  intro d hd
  unfold avg_predict_marginals at hd
  rw [List.mem_map] at hd
  obtain ⟨t, ht, rfl⟩ := hd
  rw [List.mem_range] at ht
  have hacc : sumValues (accumulate (probs_list.map (fun probs => probs.getD t []))) =
      (probs_list.length : ℚ) := by
    rw [sumValues_accumulate, List.map_map]
    have hone : ∀ probs ∈ probs_list, (sumValues ∘ fun probs => probs.getD t []) probs = 1 := by
      intro probs hp
      have hlt : t < probs.length := by rw [hlen probs hp]; exact ht
      have hsome : probs[t]? = some probs[t] :=
        List.getElem?_eq_some.2 ⟨hlt, rfl⟩
      show sumValues (probs.getD t []) = 1
      rw [List.getD, List.get?_eq_getElem?, hsome, Option.getD_some]
      exact hdist probs hp _ (List.getElem_mem hlt)
    rw [List.map_congr_left hone]
    exact sum_map_one probs_list
  have hne2 : (probs_list.length : ℚ) ≠ 0 := by
    have : 0 < probs_list.length := List.length_pos.2 hne
    exact_mod_cast Nat.pos_iff_ne_zero.1 this
  exact sumValues_normalizeDist _ (by rw [hacc]; exact hne2)

/-- Witness for C7: two fold models over one token. -/
theorem C7_avg_marginals_witness :
    sumValues [("O".data, (3 : ℚ) / 4), ("B-TYPE".data, (1 : ℚ) / 4)] = 1 :=
  C7_avg_marginals_sum_one
    [[[("O".data, (1 : ℚ) / 2), ("B-TYPE".data, (1 : ℚ) / 2)]], [[("O".data, (1 : ℚ))]]]
    1 (by decide)
    (by intro probs hp; fin_cases hp <;> rfl)
    (by
      intro probs hp
      fin_cases hp
      · intro d hd
        rcases List.mem_singleton.1 hd with rfl
        norm_num [sumValues]
      · intro d hd
        rcases List.mem_singleton.1 hd with rfl
        norm_num [sumValues])
    [("O".data, (3 : ℚ) / 4), ("B-TYPE".data, (1 : ℚ) / 4)]
    (by
      simp [avg_predict_marginals, accumulate, accAdd, normalizeDist, sumValues,
        List.range_succ]
      norm_num)

section ParseSpans

/-- A fragment of the Python value universe sufficient for gold-span
literals: `ast.literal_eval` on the spans column yields nested
lists/tuples of integers and strings.  (Float literals do not occur in
gold spans and are not modelled.) -/
inductive PyVal where
  | int (n : ℤ)
  | str (s : Str)
  | tup (items : List PyVal)
  | list (items : List PyVal)

/-- Decimal digit run to a number, `none` when empty or non-digit. -/
def digitsToNat : List Char → Option Nat
  | [] => none
  | l =>
    if l.all (fun c => c.isDigit) then
      some (l.foldl (fun acc c => acc * 10 + (c.toNat - '0'.toNat)) 0)
    else none

/-- Python `int(a)`: exact on integer payloads; on string payloads it
models the decimal-literal case (optional sign, digit run, surrounding
whitespace); any other payload raises, modelled as `none`. -/
def pyToInt : PyVal → Option ℤ
  | .int n => some n
  | .str s =>
    match pyStrip s with
    | '-' :: ds => (digitsToNat ds).map (fun n => -(n : ℤ))
    | '+' :: ds => (digitsToNat ds).map (fun n => (n : ℤ))
    | ds => (digitsToNat ds).map (fun n => (n : ℤ))
  | _ => none

/-- Python `str(c)`: never raises.  Exact for the integer and string
payloads that occur in gold-span labels; container payloads map to a
fixed marker (their exact repr text is never relied upon). -/
def pyToStr : PyVal → Str
  | .str s => s
  | .int n => (toString n).data
  | .tup _ => "tuple".data
  | .list _ => "list".data

/-- The tuple unpacking `for a, b, c in val` for one element: exactly
three components of a tuple or list; anything else raises (string
unpacking, which could only produce single-character labels, is folded
into the failure case). -/
def unpack3 : PyVal → Option (PyVal × PyVal × PyVal)
  | .tup [a, b, c] => some (a, b, c)
  | .list [a, b, c] => some (a, b, c)
  | _ => none

/-- One element of the comprehension
`[(int(a), int(b), str(c)) for a, b, c in val]`. -/
def convertSpan (v : PyVal) : Option (ℤ × ℤ × Str) :=
  match unpack3 v with
  | none => none
  | some (a, b, c) =>
    match pyToInt a, pyToInt b with
    | some x, some y => some (x, y, pyToStr c)
    | _, _ => none

/-- The whole comprehension: `val` must itself be iterable (a list or
tuple), and every element must convert. -/
def convertSpans (v : PyVal) : Option (List (ℤ × ℤ × Str)) :=
  match v with
  | .list items => items.mapM convertSpan
  | .tup items => items.mapM convertSpan
  | _ => none

/-- The smart-quote normalisation of `parse_spans`: the four
single-character `str.replace` calls. -/
def normalizeQuotes (s : Str) : Str :=
  s.map (fun c =>
    if c = '’' ∨ c = '‘' then '\''
    else if c = '“' ∨ c = '”' then '"'
    else c)

/-- `parse_spans` from `app/service/features.py`.  `ast.literal_eval`
is external (Python's standard library) and is passed in as a function
returning `none` when it raises; a non-string input is modelled as
`none`, since the code's `isinstance` guard only distinguishes strings
from everything else. -/
def parse_spans (literalEval : Str → Option PyVal) (input : Option Str) :
    List (ℤ × ℤ × Str) :=
  match input with
  | none => []
  | some spans_str =>
    let s := pyStrip spans_str
    if s.head? = some '[' ∧ s.getLast? = some ']' then
      match literalEval (normalizeQuotes s) with
      | none => []
      | some v =>
        match convertSpans v with
        | none => []
        | some l => l
    else []

end ParseSpans

/-- C9: `parse_spans` never raises: a non-string input yields `[]`; an
input not bracketed as a list literal yields `[]`; an input whose
normalised text fails to parse yields `[]`; a parsed value that is not
a list of well-typed `(start, end, label)` triples yields `[]`; and a
well-formed literal list of triples yields exactly the corresponding
integer-offset, string-label triples. -/
theorem C9_parse_spans_total (literalEval : Str → Option PyVal) :
    (parse_spans literalEval none = []) ∧
    (∀ s : Str, ¬ ((pyStrip s).head? = some '[' ∧ (pyStrip s).getLast? = some ']') →
      parse_spans literalEval (some s) = []) ∧
    (∀ s : Str, (pyStrip s).head? = some '[' → (pyStrip s).getLast? = some ']' →
      literalEval (normalizeQuotes (pyStrip s)) = none →
      parse_spans literalEval (some s) = []) ∧
    (∀ (s : Str) (v : PyVal), (pyStrip s).head? = some '[' → (pyStrip s).getLast? = some ']' →
      literalEval (normalizeQuotes (pyStrip s)) = some v →
      (convertSpans v = none → parse_spans literalEval (some s) = []) ∧
      (∀ l, convertSpans v = some l → parse_spans literalEval (some s) = l)) := by
  refine ⟨rfl, ?_, ?_, ?_⟩
  · intro s hbr
    simp only [parse_spans]
    rw [if_neg hbr]
  · intro s h1 h2 hev
    simp only [parse_spans]
    rw [if_pos ⟨h1, h2⟩, hev]
  · intro s v h1 h2 hev
    constructor
    · intro hconv
      simp only [parse_spans]
      rw [if_pos ⟨h1, h2⟩, hev]
      show (match convertSpans v with
        | none => ([] : List (ℤ × ℤ × Str))
        | some l => l) = []
      rw [hconv]
    · intro l hconv
      simp only [parse_spans]
      rw [if_pos ⟨h1, h2⟩, hev]
      show (match convertSpans v with
        | none => ([] : List (ℤ × ℤ × Str))
        | some l2 => l2) = l
      rw [hconv]

/-- Witness for C9: a concrete well-formed literal, a concrete
non-bracketed input, and the non-string input. -/
theorem C9_parse_spans_witness :
    (parse_spans (fun _ => some (PyVal.list [PyVal.tup [PyVal.int 7, PyVal.int 9,
        PyVal.str "VOLUME".data]])) (some "[(7, 9, 'VOLUME')]".data) =
      [(7, 9, "VOLUME".data)]) ∧
    (parse_spans (fun _ => none) (some "no brackets".data) = []) ∧
    (parse_spans (fun _ => none) none = []) :=
  ⟨((C9_parse_spans_total _).2.2.2 "[(7, 9, 'VOLUME')]".data
      (PyVal.list [PyVal.tup [PyVal.int 7, PyVal.int 9, PyVal.str "VOLUME".data]])
      (by decide) (by decide) rfl).2 [(7, 9, "VOLUME".data)] rfl,
   (C9_parse_spans_total _).2.1 "no brackets".data (by decide),
   (C9_parse_spans_total _).1⟩

section PipelinePredict

/-- The attributes of `Pipeline` that `predict_bio` reads.  The regex
extractor (`rules.extract_all`) and the optional neural NER extraction
(`_extract_brands` and `_extract_types`, concatenated) face external
engines and are carried as functions; components whose contents
`predict_bio` never inspects are presence flags. -/
structure PipelineState where
  initialized : Bool
  rules : Option (Str → List Span)
  tokenizer : Option Unit
  postprocessor : Option Unit
  brand_type_detector : Option Unit
  ner_pipeline : Option (Str → List Span)

/-- `Pipeline.is_ready`. -/
def is_ready (st : PipelineState) : Bool :=
  st.initialized && st.rules.isSome && st.tokenizer.isSome &&
    st.postprocessor.isSome && st.brand_type_detector.isSome

/-- Python `text.split()` (no separator): the maximal non-whitespace
runs, which is exactly what the `\S+` scanner collects. -/
def pySplit (s : Str) : List Str :=
  (simple_tokenize s).map (fun t => t.text)

/-- `Pipeline._normalize_text`: `' '.join(text.split())`. -/
def normalize_text (text : Str) : Str :=
  List.intercalate [' '] (pySplit text)

/-- `Pipeline.predict_bio`: raise when not ready; return `[]` for empty
or whitespace-only text; otherwise extract rule spans (plus neural NER
spans when a model is loaded) from the normalised text and
post-process them. -/
def predict_bio (st : PipelineState) (text : Str) : Except Str (List ProcessedSpan) :=
  if ¬ is_ready st then .error "Pipeline is not ready".data
  else if text = [] ∨ pyStrip text = [] then .ok []
  else
    let normalized := normalize_text text
    let ruleSpans := (st.rules.getD (fun _ => [])) normalized
    let nerSpans :=
      match st.ner_pipeline with
      | some ner => ner normalized
      | none => []
    .ok (process_spans (ruleSpans ++ nerSpans))

end PipelinePredict

/-- C10: for every pipeline state that is ready — whatever extraction
functions it carries — and every text that is empty or whitespace-only,
`predict_bio` returns the empty span list; since the result is the same
for every choice of rule and NER extraction functions and of
post-processing input, neither extraction nor post-processing can
influence it (they are not invoked). -/
theorem C10_predict_bio_blank (st : PipelineState) (text : Str)
    (hready : is_ready st = true)
    (hblank : text = [] ∨ pyStrip text = []) :
    predict_bio st text = .ok [] := by
  unfold predict_bio
  rw [if_neg (not_not_intro hready), if_pos hblank]

/-- Witness for C10: a ready pipeline state and a whitespace-only
text. -/
theorem C10_predict_bio_witness :
    predict_bio
      ⟨true, some (fun _ => []), some (), some (), some (), none⟩
      "  ".data = .ok [] :=
  C10_predict_bio_blank _ _ rfl (Or.inr (by decide))

section BioToSpans

/-- The flat label computed in the merge loop of
`StackedCRF.predict_spans`: `'O'` stays `'O'`, otherwise the part after
the first dash (`t.split('-', 1)[1]`; a dashless non-`O` tag would make
Python's tuple unpacking raise, which cannot happen for BIO sequences —
the embedding returns the tag itself there). -/
def flatLabel (t : Str) : Str :=
  if t = "O".data then "O".data
  else
    match splitOnce t with
    | some (_, lab) => lab
    | none => t

/-- The merge loop of `StackedCRF.predict_spans` after the first token:
state `(cur_label, cur_start, prev_end)`; a token with the same flat
label extends the current segment, a different one closes it; the final
segment is emitted when the input ends. -/
def mergeAux (curLabel : Str) (curStart prevEnd : Nat) :
    List (Token × Str) → List (Nat × Nat × Str)
  | [] => [(curStart, prevEnd, curLabel)]
  | (tok, t) :: rest =>
    if flatLabel t = curLabel then mergeAux curLabel curStart tok.stop rest
    else (curStart, prevEnd, curLabel) :: mergeAux (flatLabel t) tok.start tok.stop rest

/-- The merge of `StackedCRF.predict_spans` on an already-zipped
token/tag list (the code zips `sent` with `tags`). -/
def mergeSpansPairs : List (Token × Str) → List (Nat × Nat × Str)
  | [] => []
  | (tok, t) :: rest => mergeAux (flatLabel t) tok.start tok.stop rest

/-- The BIO-to-spans merge of `StackedCRF.predict_spans` (called
`bio_to_spans` in the specification): merge consecutive tokens sharing
one flat label — `O` included — into half-open spans. -/
def bio_to_spans (sent : List Token) (tags : List Str) : List (Nat × Nat × Str) :=
  mergeSpansPairs (sent.zip tags)

/-- `prev_end` after the merge loop consumes the initial run of tokens
carrying flat label `L`. -/
def runEnd (L : Str) (pe : Nat) : List (Token × Str) → Nat
  | [] => pe
  | (tok, t) :: rest => if flatLabel t = L then runEnd L tok.stop rest else pe

/-- The pairs left after the merge loop consumes the initial run of
flat label `L`. -/
def runRest (L : Str) : List (Token × Str) → List (Token × Str)
  | [] => []
  | (tok, t) :: rest => if flatLabel t = L then runRest L rest else (tok, t) :: rest

/-- Structure of the merge: it emits the span of the initial run and
restarts on the remainder. -/
theorem mergeAux_structure (L : Str) :
    ∀ (ps : List (Token × Str)) (sa pe : Nat),
      mergeAux L sa pe ps = (sa, runEnd L pe ps, L) :: mergeSpansPairs (runRest L ps) := by
  intro ps
  induction ps with
  | nil => intro sa pe; rfl
  | cons p rest ih =>
    intro sa pe
    obtain ⟨tok, t⟩ := p
    by_cases h : flatLabel t = L
    · show (if flatLabel t = L then mergeAux L sa tok.stop rest
        else (sa, pe, L) :: mergeAux (flatLabel t) tok.start tok.stop rest) =
        ((sa, runEnd L pe ((tok, t) :: rest), L) :: mergeSpansPairs (runRest L ((tok, t) :: rest)))
      rw [if_pos h, ih]
      have h1 : runEnd L pe ((tok, t) :: rest) = runEnd L tok.stop rest := by
        show (if flatLabel t = L then runEnd L tok.stop rest else pe) = _
        rw [if_pos h]
      have h2 : runRest L ((tok, t) :: rest) = runRest L rest := by
        show (if flatLabel t = L then runRest L rest else (tok, t) :: rest) = _
        rw [if_pos h]
      rw [h1, h2]
    · show (if flatLabel t = L then mergeAux L sa tok.stop rest
        else (sa, pe, L) :: mergeAux (flatLabel t) tok.start tok.stop rest) =
        ((sa, runEnd L pe ((tok, t) :: rest), L) :: mergeSpansPairs (runRest L ((tok, t) :: rest)))
      rw [if_neg h]
      have h1 : runEnd L pe ((tok, t) :: rest) = pe := by
        show (if flatLabel t = L then runEnd L tok.stop rest else pe) = _
        rw [if_neg h]
      have h2 : runRest L ((tok, t) :: rest) = (tok, t) :: rest := by
        show (if flatLabel t = L then runRest L rest else (tok, t) :: rest) = _
        rw [if_neg h]
      rw [h1, h2]
      rfl

/-- `runRest` drops exactly the initial `L`-labelled run. -/
theorem runRest_drop (L : Str) :
    ∀ (d : Nat) (ps : List (Token × Str)),
      (∀ m (hlt : m < ps.length), m < d → flatLabel (ps[m].2) = L) →
      (∀ hlt : d < ps.length, flatLabel (ps[d].2) ≠ L) →
      runRest L ps = ps.drop d := by
  intro d
  induction d with
  | zero =>
    intro ps _ h2
    cases ps with
    | nil => rfl
    | cons p rest =>
      obtain ⟨tok, t⟩ := p
      show (if flatLabel t = L then runRest L rest else (tok, t) :: rest) = _
      rw [if_neg (show flatLabel t ≠ L from h2 (by simp))]
      rfl
  | succ d ih =>
    intro ps h1 h2
    cases ps with
    | nil => rfl
    | cons p rest =>
      obtain ⟨tok, t⟩ := p
      have hL : flatLabel t = L := h1 0 (by simp) (by omega)
      show (if flatLabel t = L then runRest L rest else (tok, t) :: rest) = _
      rw [if_pos hL]
      exact ih rest
        (fun m hlt hm => h1 (m + 1) (by simpa using hlt) (by omega))
        (fun hlt => h2 (by simpa using hlt))

/-- `runEnd` with no matching head leaves `prev_end` unchanged. -/
theorem runEnd_zero (L : Str) (ps : List (Token × Str)) (pe : Nat)
    (h : ∀ hlt : 0 < ps.length, flatLabel (ps[0].2) ≠ L) :
    runEnd L pe ps = pe := by
  cases ps with
  | nil => rfl
  | cons p rest =>
    obtain ⟨tok, t⟩ := p
    show (if flatLabel t = L then runEnd L tok.stop rest else pe) = _
    rw [if_neg (show flatLabel t ≠ L from h (by simp))]

/-- `runEnd` over an initial run ending at index `e` returns the stop
offset of the run's last token. -/
theorem runEnd_succ (L : Str) :
    ∀ (e : Nat) (ps : List (Token × Str)) (pe : Nat) (hlt : e < ps.length),
      (∀ m (hm : m < ps.length), m ≤ e → flatLabel (ps[m].2) = L) →
      (∀ h2 : e + 1 < ps.length, flatLabel (ps[e + 1].2) ≠ L) →
      runEnd L pe ps = (ps[e]).1.stop := by
  intro e
  induction e with
  | zero =>
    intro ps pe hlt h1 h2
    cases ps with
    | nil => simp at hlt
    | cons p rest =>
      obtain ⟨tok, t⟩ := p
      have hL : flatLabel t = L := h1 0 (by simp) (by omega)
      show (if flatLabel t = L then runEnd L tok.stop rest else pe) = _
      rw [if_pos hL]
      exact runEnd_zero L rest tok.stop (fun hlt2 => h2 (by simpa using hlt2))
  | succ e ih =>
    intro ps pe hlt h1 h2
    cases ps with
    | nil => simp at hlt
    | cons p rest =>
      obtain ⟨tok, t⟩ := p
      have hL : flatLabel t = L := h1 0 (by simp) (by omega)
      show (if flatLabel t = L then runEnd L tok.stop rest else pe) = _
      rw [if_pos hL]
      exact ih rest tok.stop (by simpa using hlt)
        (fun m hm hme => h1 (m + 1) (by simpa using hm) (by omega))
        (fun hlt2 => h2 (by simpa using hlt2))

end BioToSpans

section RoundTrip

/-- The four entity labels of the data model. -/
def EntityLabel (L : Str) : Prop :=
  L = "TYPE".data ∨ L = "BRAND".data ∨ L = "VOLUME".data ∨ L = "PERCENT".data

theorem normSpanEnt_entity {L : Str} (h : EntityLabel L) : normSpanEnt L = L := by
  rcases h with h | h | h | h <;> (subst h; decide)

theorem normSpans_entity (gold : List (Nat × Nat × Str))
    (h : ∀ r ∈ gold, EntityLabel r.2.2) : normSpans gold = gold := by
  induction gold with
  | nil => rfl
  | cons r rest ih =>
    show (r.1, r.2.1, normSpanEnt r.2.2) :: normSpans rest = r :: rest
    rw [normSpanEnt_entity (h r (List.mem_cons_self _ _)),
      ih (fun r2 hr2 => h r2 (List.mem_cons_of_mem _ hr2))]

theorem flatLabel_B (L : Str) : flatLabel ('B' :: '-' :: L) = L := by
  unfold flatLabel
  rw [if_neg ?hne]
  case hne =>
    intro hh
    injection hh with h1 _
    exact absurd h1 (by decide)
  rfl

theorem flatLabel_I (L : Str) : flatLabel ('I' :: '-' :: L) = L := by
  unfold flatLabel
  rw [if_neg ?hne]
  case hne =>
    intro hh
    injection hh with h1 _
    exact absurd h1 (by decide)
  rfl

theorem entity_tags_mem_TAGS {L : Str} (h : EntityLabel L) :
    ('B' :: '-' :: L) ∈ TAGS ∧ ('I' :: '-' :: L) ∈ TAGS := by
  rcases h with h | h | h | h <;> (subst h; exact ⟨by decide, by decide⟩)

/-- The flat label a mark denotes: the entity, or `O` for unmarked. -/
def markFlat : Option Str → Str
  | some L => L
  | none => "O".data

theorem bioOfMarks_length :
    ∀ (marks : List (Option Str)) (prevEnt : Option Str),
      (bioOfMarks prevEnt marks).length = marks.length := by
  intro marks
  induction marks with
  | nil => intro prevEnt; rfl
  | cons m rest ih =>
    intro prevEnt
    cases m with
    | none => simp only [bioOfMarks, List.length_cons, ih]
    | some L => simp only [bioOfMarks, List.length_cons, ih]

theorem spans_to_bio_length (tokens : List Token) (gold : List (Nat × Nat × Str))
    (tagset : List Str) :
    (spans_to_bio tokens gold tagset).length = tokens.length := by
  unfold spans_to_bio tagsetFilter
  rw [List.length_map, bioOfMarks_length, List.length_map]

/-- The flat label of each tag produced by the BIO pass and tagset
filter is exactly the token's mark (entity labels survive the tagset
filter because their `B-`/`I-` tags are in the modelled tagset). -/
theorem flat_bioOfMarks :
    ∀ (marks : List (Option Str)) (prevEnt : Option Str),
      (∀ L, some L ∈ marks → EntityLabel L) →
      List.Forall₂ (fun m y => flatLabel y = markFlat m) marks
        (tagsetFilter TAGS (bioOfMarks prevEnt marks)) := by
  intro marks
  induction marks with
  | nil => intro prevEnt _; exact List.Forall₂.nil
  | cons m rest ih =>
    intro prevEnt hent
    have hrest : ∀ L, some L ∈ rest → EntityLabel L :=
      fun L hL => hent L (List.mem_cons_of_mem _ hL)
    cases m with
    | none =>
      show List.Forall₂ _ (none :: rest)
        (tagsetFilter TAGS ("O".data :: bioOfMarks none rest))
      show List.Forall₂ _ (none :: rest)
        ((if "O".data ∈ TAGS then "O".data else "O".data) :: tagsetFilter TAGS (bioOfMarks none rest))
      rw [if_pos (by decide)]
      exact List.Forall₂.cons (by decide) (ih none hrest)
    | some L =>
      have hL : EntityLabel L := hent L (List.mem_cons_self _ _)
      by_cases hp : prevEnt = some L
      · show List.Forall₂ _ (some L :: rest)
          (tagsetFilter TAGS ((if prevEnt = some L then 'I' :: '-' :: L else 'B' :: '-' :: L) ::
            bioOfMarks (some L) rest))
        rw [if_pos hp]
        show List.Forall₂ _ (some L :: rest)
          ((if ('I' :: '-' :: L) ∈ TAGS then ('I' :: '-' :: L) else "O".data) ::
            tagsetFilter TAGS (bioOfMarks (some L) rest))
        rw [if_pos (entity_tags_mem_TAGS hL).2]
        exact List.Forall₂.cons (flatLabel_I L) (ih (some L) hrest)
      · show List.Forall₂ _ (some L :: rest)
          (tagsetFilter TAGS ((if prevEnt = some L then 'I' :: '-' :: L else 'B' :: '-' :: L) ::
            bioOfMarks (some L) rest))
        rw [if_neg hp]
        show List.Forall₂ _ (some L :: rest)
          ((if ('B' :: '-' :: L) ∈ TAGS then ('B' :: '-' :: L) else "O".data) ::
            tagsetFilter TAGS (bioOfMarks (some L) rest))
        rw [if_pos (entity_tags_mem_TAGS hL).1]
        exact List.Forall₂.cons (flatLabel_B L) (ih (some L) hrest)

end RoundTrip

section MarkCharacterization

theorem find?_eq_some_of_unique {α : Type} {p : α → Bool} :
    ∀ {l : List α} {a : α}, a ∈ l → p a = true → (∀ b ∈ l, p b = true → b = a) →
      l.find? p = some a := by
  intro l
  induction l with
  | nil => intro a ha; cases ha
  | cons x rest ih =>
    intro a ha hpa huniq
    by_cases hx : p x = true
    · rw [List.find?_cons_of_pos _ hx]
      rw [huniq x (List.mem_cons_self _ _) hx]
    · rw [List.find?_cons_of_neg _ hx]
      rcases List.mem_cons.1 ha with rfl | ha
      · exact absurd hpa hx
      · exact ih ha hpa (fun b hb hpb => huniq b (List.mem_cons_of_mem _ hb) hpb)

theorem forall2_mem_left {α β : Type} {R : α → β → Prop} :
    ∀ {l1 : List α} {l2 : List β}, List.Forall₂ R l1 l2 → ∀ a ∈ l1, ∃ b ∈ l2, R a b := by
  intro l1 l2 h
  induction h with
  | nil => intro a ha; cases ha
  | cons hab _ ih =>
    intro a ha
    rcases List.mem_cons.1 ha with rfl | ha
    · exact ⟨_, List.mem_cons_self _ _, hab⟩
    · obtain ⟨b, hb, hr⟩ := ih a ha
      exact ⟨b, List.mem_cons_of_mem _ hb, hr⟩

theorem forall2_mem_right {α β : Type} {R : α → β → Prop} :
    ∀ {l1 : List α} {l2 : List β}, List.Forall₂ R l1 l2 → ∀ b ∈ l2, ∃ a ∈ l1, R a b := by
  intro l1 l2 h
  induction h with
  | nil => intro b hb; cases hb
  | cons hab _ ih =>
    intro b hb
    rcases List.mem_cons.1 hb with rfl | hb
    · exact ⟨_, List.mem_cons_self _ _, hab⟩
    · obtain ⟨a, ha, hr⟩ := ih b hb
      exact ⟨a, List.mem_cons_of_mem _ ha, hr⟩

theorem forall2_eq_map {α β : Type} {f : α → β} :
    ∀ {l1 : List α} {l2 : List β}, List.Forall₂ (fun a b => b = f a) l1 l2 → l2 = l1.map f := by
  intro l1 l2 h
  induction h with
  | nil => rfl
  | cons hab _ ih => rw [List.map_cons, ← hab, ih]

variable {tokens : List Token}

/-- Token starts are monotone and tokens are separated, from the
ordering invariant. -/
theorem token_sep (_htok : ∀ t ∈ tokens, t.start < t.stop)
    (hord : List.Pairwise (fun a b : Token => a.stop ≤ b.start) tokens)
    {m1 m2 : Nat} (hm1 : m1 < tokens.length) (hm2 : m2 < tokens.length) (h : m1 < m2) :
    tokens[m1].stop ≤ tokens[m2].start :=
  List.pairwise_iff_getElem.1 hord m1 m2 hm1 hm2 h

/-- The overlap test of `spans_to_bio` marks token `k` with the span
built from token range `[i, j]` exactly when `i ≤ k ≤ j`. -/
theorem cover_iff (htok : ∀ t ∈ tokens, t.start < t.stop)
    (hord : List.Pairwise (fun a b : Token => a.stop ≤ b.start) tokens)
    {i j k : Nat} (hi : i < tokens.length) (hj : j < tokens.length)
    (hk : k < tokens.length) (hij : i ≤ j) :
    (0 < min (tokens[k].stop) (tokens[j].stop) - max (tokens[k].start) (tokens[i].start)) ↔
      (i ≤ k ∧ k ≤ j) := by
  have hpk : tokens[k].start < tokens[k].stop := htok _ (List.getElem_mem hk)
  have hpi : tokens[i].start < tokens[i].stop := htok _ (List.getElem_mem hi)
  have hpj : tokens[j].start < tokens[j].stop := htok _ (List.getElem_mem hj)
  constructor
  · intro hov
    by_contra hcon
    rw [not_and_or] at hcon
    rcases hcon with hcon | hcon
    · have hki : k < i := by omega
      have h1 : tokens[k].stop ≤ tokens[i].start := token_sep htok hord hk hi hki
      omega
    · have hjk : j < k := by omega
      have h1 : tokens[j].stop ≤ tokens[k].start := token_sep htok hord hj hk hjk
      omega
  · intro ⟨hik, hkj⟩
    have h1 : tokens[i].start ≤ tokens[k].start := by
      rcases Nat.lt_or_ge i k with h | h
      · have := token_sep htok hord hi hk h
        omega
      · have : i = k := by omega
        subst this
        omega
    have h2 : tokens[k].stop ≤ tokens[j].stop := by
      rcases Nat.lt_or_ge k j with h | h
      · have := token_sep htok hord hk hj h
        omega
      · have : k = j := by omega
        subst this
        omega
    omega

end MarkCharacterization

section MergeRuns

/-- A suffix whose tokens are all flat-labelled `O` contributes no
non-`O` span. -/
theorem merge_allO (zs : List (Token × Str)) (k : Nat)
    (hO : ∀ m (hm : m < zs.length), k ≤ m → flatLabel ((zs[m]).2) = "O".data) :
    (mergeSpansPairs (zs.drop k)).filter (fun s => decide (s.2.2 ≠ "O".data)) = [] := by
  by_cases hklen : k < zs.length
  · rw [List.drop_eq_getElem_cons hklen]
    show (mergeAux (flatLabel (zs[k]).2) (zs[k]).1.start (zs[k]).1.stop
      (zs.drop (k + 1))).filter _ = []
    rw [hO k hklen (Nat.le_refl _), mergeAux_structure]
    have hrr : runRest "O".data (zs.drop (k + 1)) = [] := by
      rw [runRest_drop "O".data (zs.drop (k + 1)).length (zs.drop (k + 1)) ?h1 ?h2,
        List.drop_length]
      case h1 =>
        intro m hlt hm
        rw [List.getElem_drop]
        exact hO (k + 1 + m) (by rw [List.length_drop] at hlt; omega) (by omega)
      case h2 =>
        intro hlt
        exact absurd hlt (lt_irrefl _)
    rw [hrr]
    show List.filter _ [((zs[k]).1.start, runEnd "O".data (zs[k]).1.stop (zs.drop (k + 1)),
      "O".data)] = []
    rw [List.filter_cons_of_neg (by simp)]
    rfl
  · rw [List.drop_eq_nil_of_le (by omega)]
    rfl

/-- The merge output's non-`O` spans are unchanged by skipping a
leading all-`O` stretch. -/
theorem merge_skipO (zs : List (Token × Str)) (k i : Nat) (hki : k ≤ i)
    (hi : i < zs.length)
    (hOs : ∀ m (hm : m < zs.length), k ≤ m → m < i → flatLabel ((zs[m]).2) = "O".data)
    (hL : flatLabel ((zs[i]).2) ≠ "O".data) :
    (mergeSpansPairs (zs.drop k)).filter (fun s => decide (s.2.2 ≠ "O".data)) =
      (mergeSpansPairs (zs.drop i)).filter (fun s => decide (s.2.2 ≠ "O".data)) := by
  rcases Nat.eq_or_lt_of_le hki with rfl | hki2
  · rfl
  · obtain ⟨d, rfl⟩ : ∃ d, i = k + 1 + d := ⟨i - (k + 1), by omega⟩
    have hklen : k < zs.length := by omega
    rw [List.drop_eq_getElem_cons hklen]
    have hflat : flatLabel ((zs[k]).2) = "O".data := hOs k hklen (Nat.le_refl _) hki2
    show ((mergeAux (flatLabel (zs[k]).2) (zs[k]).1.start (zs[k]).1.stop
      (zs.drop (k + 1))).filter _) = _
    rw [hflat, mergeAux_structure]
    have hrr : runRest "O".data (zs.drop (k + 1)) = zs.drop (k + 1 + d) := by
      rw [runRest_drop "O".data d (zs.drop (k + 1)) ?h1 ?h2, List.drop_drop]
      case h1 =>
        intro m hlt hm
        rw [List.getElem_drop]
        exact hOs (k + 1 + m) (by rw [List.length_drop] at hlt; omega) (by omega) (by omega)
      case h2 =>
        intro hlt
        rw [List.getElem_drop]
        exact hL
    rw [hrr]
    rw [List.filter_cons_of_neg (by simp)]

end MergeRuns

section MergeMain

theorem flat_idx_congr (zs : List (Token × Str)) {a b : Nat} (h : a = b)
    (ha : a < zs.length) (hb : b < zs.length) :
    flatLabel ((zs[a]).2) = flatLabel ((zs[b]).2) := by
  subst h
  rfl

theorem stop_idx_congr (zs : List (Token × Str)) {a b : Nat} (h : a = b)
    (ha : a < zs.length) (hb : b < zs.length) :
    (zs[a]).1.stop = (zs[b]).1.stop := by
  subst h
  rfl

/-- Main run lemma: under the mark discipline, the non-`O` spans the
merge emits from position `k` onwards are exactly the char spans of the
sorted, disjoint, separated gold token ranges. -/
theorem merge_runs_main (zs : List (Token × Str)) :
    ∀ (gs : List (Nat × Nat × Str)) (k : Nat),
      (∀ g ∈ gs, k ≤ g.1 ∧ g.1 ≤ g.2.1 ∧ g.2.1 < zs.length) →
      List.Pairwise (fun g1 g2 => g1.2.1 < g2.1 ∧ (g1.2.2 = g2.2.2 → g1.2.1 + 1 < g2.1)) gs →
      (∀ g ∈ gs, g.2.2 ≠ "O".data) →
      (∀ g ∈ gs, ∀ m (hm : m < zs.length), g.1 ≤ m → m ≤ g.2.1 →
        flatLabel ((zs[m]).2) = g.2.2) →
      (∀ m (hm : m < zs.length), k ≤ m → (∀ g ∈ gs, ¬(g.1 ≤ m ∧ m ≤ g.2.1)) →
        flatLabel ((zs[m]).2) = "O".data) →
      List.Forall₂ (fun g s => ∃ (hi : g.1 < zs.length) (hj : g.2.1 < zs.length),
          s = ((zs[g.1]).1.start, (zs[g.2.1]).1.stop, g.2.2))
        gs ((mergeSpansPairs (zs.drop k)).filter (fun s => decide (s.2.2 ≠ "O".data))) := by
  intro gs
  induction gs with
  | nil =>
    intro k _ _ _ _ hfnone
    rw [merge_allO zs k
      (fun m hm hkm => hfnone m hm hkm (fun g hg => absurd hg (List.not_mem_nil g)))]
    exact List.Forall₂.nil
  | cons g gs' ih =>
    intro k hwithin hpw hlabO hfsome hfnone
    obtain ⟨i, j, L⟩ := g
    obtain ⟨hki, hij, hjlen⟩ := hwithin (i, j, L) (List.mem_cons_self _ _)
    simp only at hki hij hjlen
    rw [List.pairwise_cons] at hpw
    obtain ⟨hhead, hpw2⟩ := hpw
    have hilen : i < zs.length := by omega
    have hLO : L ≠ "O".data := hlabO (i, j, L) (List.mem_cons_self _ _)
    have hfsomeg : ∀ m (hm : m < zs.length), i ≤ m → m ≤ j → flatLabel ((zs[m]).2) = L :=
      fun m hm h1 h2 => hfsome (i, j, L) (List.mem_cons_self _ _) m hm h1 h2
    have hflati : flatLabel ((zs[i]).2) = L := hfsomeg i hilen (Nat.le_refl _) hij
    have hafter : ∀ hlt : j + 1 < zs.length, flatLabel ((zs[j + 1]).2) ≠ L := by
      intro hlt
      by_cases hcov : ∃ g2 ∈ gs', g2.1 ≤ j + 1 ∧ j + 1 ≤ g2.2.1
      · obtain ⟨g2, hg2, hc1, hc2⟩ := hcov
        rw [hfsome g2 (List.mem_cons_of_mem _ hg2) _ hlt hc1 hc2]
        intro heq
        have h1 := (hhead g2 hg2).1
        have h2 := (hhead g2 hg2).2 heq.symm
        simp only at h1 h2
        omega
      · have hOh : flatLabel ((zs[j + 1]).2) = "O".data := by
          refine hfnone (j + 1) hlt (by omega) ?_
          intro g2 hg2
          rcases List.mem_cons.1 hg2 with rfl | hg2
          · simp only
            omega
          · intro hc
            exact hcov ⟨g2, hg2, hc.1, hc.2⟩
        rw [hOh]
        exact fun heq => hLO heq.symm
    rw [merge_skipO zs k i hki hilen ?hOs (by rw [hflati]; exact hLO)]
    case hOs =>
      intro m hm hkm hmi
      refine hfnone m hm hkm ?_
      intro g2 hg2
      rcases List.mem_cons.1 hg2 with rfl | hg2
      · simp only
        omega
      · have := (hhead g2 hg2).1
        simp only at this
        omega
    rw [List.drop_eq_getElem_cons hilen]
    show List.Forall₂ _ _
      ((mergeAux (flatLabel (zs[i]).2) (zs[i]).1.start (zs[i]).1.stop
        (zs.drop (i + 1))).filter _)
    rw [hflati, mergeAux_structure]
    have hre : runEnd L ((zs[i]).1.stop) (zs.drop (i + 1)) = (zs[j]).1.stop := by
      rcases Nat.eq_or_lt_of_le hij with heq | hlt2
      · rw [runEnd_zero L _ _ ?hz]
        · exact stop_idx_congr zs heq hilen hjlen
        case hz =>
          intro hlt0
          rw [List.length_drop] at hlt0
          rw [List.getElem_drop]
          rw [flat_idx_congr zs (show i + 1 + 0 = j + 1 by omega) (by omega) (by omega)]
          exact hafter (by omega)
      · have hlt : j - i - 1 < (zs.drop (i + 1)).length := by
          rw [List.length_drop]; omega
        rw [runEnd_succ L (j - i - 1) (zs.drop (i + 1)) _ hlt ?h1 ?h2]
        · rw [List.getElem_drop]
          exact stop_idx_congr zs (show i + 1 + (j - i - 1) = j by omega) (by omega) hjlen
        case h1 =>
          intro m hm hme
          rw [List.length_drop] at hm
          rw [List.getElem_drop]
          exact hfsomeg (i + 1 + m) (by omega) (by omega) (by omega)
        case h2 =>
          intro h2lt
          rw [List.length_drop] at h2lt
          rw [List.getElem_drop]
          rw [flat_idx_congr zs (show i + 1 + (j - i - 1 + 1) = j + 1 by omega)
            (by omega) (by omega)]
          exact hafter (by omega)
    have hrr : runRest L (zs.drop (i + 1)) = zs.drop (j + 1) := by
      rw [runRest_drop L (j - i) (zs.drop (i + 1)) ?r1 ?r2, List.drop_drop]
      · rw [show i + 1 + (j - i) = j + 1 by omega]
      case r1 =>
        intro m hm hmd
        rw [List.length_drop] at hm
        rw [List.getElem_drop]
        exact hfsomeg (i + 1 + m) (by omega) (by omega) (by omega)
      case r2 =>
        intro hdlt
        rw [List.length_drop] at hdlt
        rw [List.getElem_drop]
        rw [flat_idx_congr zs (show i + 1 + (j - i) = j + 1 by omega) (by omega) (by omega)]
        exact hafter (by omega)
    rw [hre, hrr]
    rw [@List.filter_cons_of_pos _ (fun s : Nat × Nat × Str => decide (s.2.2 ≠ "O".data))
      ((zs[i]).1.start, (zs[j]).1.stop, L) (mergeSpansPairs (zs.drop (j + 1)))
      (decide_eq_true hLO)]
    refine List.Forall₂.cons ⟨hilen, hjlen, rfl⟩ ?_
    refine ih (j + 1) ?_ hpw2 ?_ ?_ ?_
    · intro g2 hg2
      have h1 := (hhead g2 hg2).1
      have h2 := hwithin g2 (List.mem_cons_of_mem _ hg2)
      simp only at h1
      exact ⟨by omega, h2.2.1, h2.2.2⟩
    · intro g2 hg2
      exact hlabO g2 (List.mem_cons_of_mem _ hg2)
    · intro g2 hg2 m hm h1 h2
      exact hfsome g2 (List.mem_cons_of_mem _ hg2) m hm h1 h2
    · intro m hm hjm hnc
      refine hfnone m hm (by omega) ?_
      intro g2 hg2
      rcases List.mem_cons.1 hg2 with rfl | hg2
      · simp only
        omega
      · exact hnc g2 hg2

end MergeMain

section MarkLemmas

/-- A token inside the token range of a gold span is marked with that
span's entity: the span is found by the overlap test, and disjointness
makes it the unique hit, hence the first. -/
theorem mark_some {tokens : List Token} {gidx gold : List (Nat × Nat × Str)}
    (htok : ∀ t ∈ tokens, t.start < t.stop)
    (hord : List.Pairwise (fun a b : Token => a.stop ≤ b.start) tokens)
    (hgold : List.Forall₂ (fun g r => ∃ (hi : g.1 < tokens.length) (hj : g.2.1 < tokens.length),
      r = ((tokens[g.1]).start, (tokens[g.2.1]).stop, g.2.2)) gidx gold)
    (hwithin : ∀ g ∈ gidx, g.1 ≤ g.2.1 ∧ g.2.1 < tokens.length)
    (hdisj : List.Pairwise (fun g1 g2 => g1.2.1 < g2.1 ∨ g2.2.1 < g1.1) gidx)
    {g : Nat × Nat × Str} (hg : g ∈ gidx) {k : Nat} (hk : k < tokens.length)
    (hik : g.1 ≤ k) (hkj : k ≤ g.2.1) :
    markOf gold (tokens[k]) = some g.2.2 := by
  obtain ⟨hij, hjlen⟩ := hwithin g hg
  obtain ⟨r, hrmem, hrel⟩ := forall2_mem_left hgold g hg
  obtain ⟨hi, hj, hreq⟩ := hrel
  subst hreq
  have hfind : gold.find?
      (fun s => decide (0 < min (tokens[k]).stop s.2.1 - max (tokens[k]).start s.1)) =
      some ((tokens[g.1]).start, (tokens[g.2.1]).stop, g.2.2) := by
    refine find?_eq_some_of_unique hrmem ?_ ?_
    · exact decide_eq_true ((cover_iff htok hord hi hj hk hij).2 ⟨hik, hkj⟩)
    · intro r2 hr2 hp2
      obtain ⟨g2, hg2, hrel2⟩ := forall2_mem_right hgold r2 hr2
      obtain ⟨hi2, hj2, hreq2⟩ := hrel2
      subst hreq2
      obtain ⟨hc1, hc2⟩ := (cover_iff htok hord hi2 hj2 hk (hwithin g2 hg2).1).1
        (of_decide_eq_true hp2)
      obtain ⟨n1, hn1, hgn1⟩ := List.getElem_of_mem hg
      obtain ⟨n2, hn2, hgn2⟩ := List.getElem_of_mem hg2
      have hgeq : g2 = g := by
        rcases Nat.lt_trichotomy n1 n2 with hlt | heqn | hgt
        · exfalso
          have hd := List.pairwise_iff_getElem.1 hdisj n1 n2 hn1 hn2 hlt
          rw [hgn1, hgn2] at hd
          rcases hd with hd | hd <;> omega
        · subst heqn
          exact hgn2.symm.trans hgn1
        · exfalso
          have hd := List.pairwise_iff_getElem.1 hdisj n2 n1 hn2 hn1 hgt
          rw [hgn1, hgn2] at hd
          rcases hd with hd | hd <;> omega
      subst hgeq
      rfl
  unfold markOf
  rw [hfind]
  rfl

/-- A token covered by no gold token range is unmarked: no normalised
span passes the overlap test. -/
theorem mark_none {tokens : List Token} {gidx gold : List (Nat × Nat × Str)}
    (htok : ∀ t ∈ tokens, t.start < t.stop)
    (hord : List.Pairwise (fun a b : Token => a.stop ≤ b.start) tokens)
    (hgold : List.Forall₂ (fun g r => ∃ (hi : g.1 < tokens.length) (hj : g.2.1 < tokens.length),
      r = ((tokens[g.1]).start, (tokens[g.2.1]).stop, g.2.2)) gidx gold)
    (hwithin : ∀ g ∈ gidx, g.1 ≤ g.2.1 ∧ g.2.1 < tokens.length)
    {k : Nat} (hk : k < tokens.length)
    (hnone : ∀ g ∈ gidx, ¬(g.1 ≤ k ∧ k ≤ g.2.1)) :
    markOf gold (tokens[k]) = none := by
  have hfind : gold.find?
      (fun s => decide (0 < min (tokens[k]).stop s.2.1 - max (tokens[k]).start s.1)) = none := by
    refine List.find?_eq_none.2 ?_
    intro r hr
    obtain ⟨g2, hg2, hrel2⟩ := forall2_mem_right hgold r hr
    obtain ⟨hi2, hj2, hreq2⟩ := hrel2
    subst hreq2
    intro hp2
    exact hnone g2 hg2 ((cover_iff htok hord hi2 hj2 hk (hwithin g2 hg2).1).1
      (of_decide_eq_true hp2))
  unfold markOf
  rw [hfind]
  rfl

end MarkLemmas

section RoundTripMain

instance : IsTotal (Nat × Nat × Str) (fun a b : Nat × Nat × Str => a.1 ≤ b.1) :=
  ⟨fun a b => Nat.le_total a.1 b.1⟩

instance : IsTrans (Nat × Nat × Str) (fun a b : Nat × Nat × Str => a.1 ≤ b.1) :=
  ⟨fun _ _ _ h1 h2 => Nat.le_trans h1 h2⟩

instance (L : Str) : Decidable (EntityLabel L) :=
  decidable_of_iff
    (L = "TYPE".data ∨ L = "BRAND".data ∨ L = "VOLUME".data ∨ L = "PERCENT".data) Iff.rfl

theorem entity_ne_O {L : Str} (h : EntityLabel L) : L ≠ "O".data := by
  rcases h with h | h | h | h <;> (subst h; decide)

/-- The half-open character span of a token-index range carrying a
label. -/
def charSpanOf (tokens : List Token) (g : Nat × Nat × Str) : Nat × Nat × Str :=
  ((tokens.getD g.1 ⟨[], 0, 0⟩).start, (tokens.getD g.2.1 ⟨[], 0, 0⟩).stop, g.2.2)

end RoundTripMain

/-- C4 (amended): for tokens that are proper (`start < stop`) and
ordered, and gold spans given as token ranges — boundaries aligned
with token boundaries — that carry entity labels, are mutually
disjoint, and are never token-adjacent when they share an entity, the
round trip `spans_to_bio` then `bio_to_spans` (merging consecutive
tokens of equal flattened label into one half-open span) reproduces
exactly the gold spans as the non-`O` output spans.  The original
claim, without the same-entity non-adjacency condition, is refuted by
`C4_counterexample`. -/
theorem C4_round_trip_amended
    (tokens : List Token) (gidx gold : List (Nat × Nat × Str))
    (htok : ∀ t ∈ tokens, t.start < t.stop)
    (hord : List.Pairwise (fun a b : Token => a.stop ≤ b.start) tokens)
    (hwithin : ∀ g ∈ gidx, g.1 ≤ g.2.1 ∧ g.2.1 < tokens.length)
    (hlab : ∀ g ∈ gidx, EntityLabel g.2.2)
    (hdisj : List.Pairwise (fun g1 g2 => g1.2.1 < g2.1 ∨ g2.2.1 < g1.1) gidx)
    (hsep : List.Pairwise (fun g1 g2 =>
      g1.2.2 = g2.2.2 → g1.2.1 + 1 ≠ g2.1 ∧ g2.2.1 + 1 ≠ g1.1) gidx)
    (hgold : List.Forall₂ (fun g r => ∃ (hi : g.1 < tokens.length) (hj : g.2.1 < tokens.length),
      r = ((tokens[g.1]).start, (tokens[g.2.1]).stop, g.2.2)) gidx gold) :
    ∀ s, (s ∈ bio_to_spans tokens (spans_to_bio tokens gold TAGS) ∧ s.2.2 ≠ "O".data) ↔
      s ∈ gold := by
  have hglab : ∀ r ∈ gold, EntityLabel r.2.2 := by
    intro r hr
    obtain ⟨g, hg, hrel⟩ := forall2_mem_right hgold r hr
    obtain ⟨hi, hj, hreq⟩ := hrel
    subst hreq
    exact hlab g hg
  have hnorm : normSpans gold = gold := normSpans_entity gold hglab
  have hmarkent : ∀ L, some L ∈ tokens.map (markOf gold) → EntityLabel L := by
    intro L hL
    obtain ⟨tok, htokmem, hmk⟩ := List.mem_map.1 hL
    unfold markOf at hmk
    obtain ⟨r, hfr, hr22⟩ := Option.map_eq_some'.1 hmk
    rw [← hr22]
    exact hglab r (List.mem_of_find?_eq_some hfr)
  have hflat2 : List.Forall₂ (fun m y => flatLabel y = markFlat m)
      (tokens.map (markOf gold)) (spans_to_bio tokens gold TAGS) := by
    show List.Forall₂ _ _
      (tagsetFilter TAGS (bioOfMarks none (tokens.map (markOf (normSpans gold)))))
    rw [hnorm]
    exact flat_bioOfMarks _ none hmarkent
  have hlen : (spans_to_bio tokens gold TAGS).length = tokens.length :=
    spans_to_bio_length tokens gold TAGS
  have hzlen : (tokens.zip (spans_to_bio tokens gold TAGS)).length = tokens.length := by
    rw [List.length_zip, hlen, Nat.min_self]
  have hflatidx : ∀ m (hmz : m < (tokens.zip (spans_to_bio tokens gold TAGS)).length)
      (hm : m < tokens.length),
      flatLabel (((tokens.zip (spans_to_bio tokens gold TAGS))[m]).2) =
        markFlat (markOf gold (tokens[m])) := by
    intro m hmz hm
    have hmt : m < (spans_to_bio tokens gold TAGS).length := by omega
    rw [List.getElem_zip]
    show flatLabel ((spans_to_bio tokens gold TAGS)[m]) = markFlat (markOf gold (tokens[m]))
    have h2 := (List.forall₂_iff_get.1 hflat2).2 m (by rw [List.length_map]; exact hm) hmt
    simp only [List.get_eq_getElem, List.getElem_map] at h2
    exact h2
  have hsortedP : List.Pairwise (fun a b : Nat × Nat × Str => a.1 ≤ b.1)
      (List.insertionSort (fun a b : Nat × Nat × Str => a.1 ≤ b.1) gidx) :=
    List.sorted_insertionSort _ gidx
  have hperm : (List.insertionSort (fun a b : Nat × Nat × Str => a.1 ≤ b.1) gidx).Perm gidx :=
    List.perm_insertionSort _ gidx
  have hdisj2 : List.Pairwise (fun g1 g2 : Nat × Nat × Str => g1.2.1 < g2.1 ∨ g2.2.1 < g1.1)
      (List.insertionSort (fun a b : Nat × Nat × Str => a.1 ≤ b.1) gidx) :=
    hdisj.perm hperm.symm (by intro x y h; exact Or.symm h)
  have hsep2 : List.Pairwise (fun g1 g2 : Nat × Nat × Str =>
      g1.2.2 = g2.2.2 → g1.2.1 + 1 ≠ g2.1 ∧ g2.2.1 + 1 ≠ g1.1)
      (List.insertionSort (fun a b : Nat × Nat × Str => a.1 ≤ b.1) gidx) :=
    hsep.perm hperm.symm (by intro x y h heq; exact ⟨(h heq.symm).2, (h heq.symm).1⟩)
  have hcomb : List.Pairwise (fun g1 g2 : Nat × Nat × Str =>
      g1.2.1 < g2.1 ∧ (g1.2.2 = g2.2.2 → g1.2.1 + 1 < g2.1))
      (List.insertionSort (fun a b : Nat × Nat × Str => a.1 ≤ b.1) gidx) := by
    refine List.Pairwise.imp_of_mem ?_ ((hsortedP.and hdisj2).and hsep2)
    intro a b ha hb h
    obtain ⟨⟨hle, hd⟩, hs⟩ := h
    have hwa := hwithin a (hperm.mem_iff.1 ha)
    have hwb := hwithin b (hperm.mem_iff.1 hb)
    have h1 : a.2.1 < b.1 := by
      rcases hd with h | h
      · exact h
      · omega
    refine ⟨h1, fun heq => ?_⟩
    have := hs heq
    omega
  have hw0 : ∀ g ∈ (List.insertionSort (fun a b : Nat × Nat × Str => a.1 ≤ b.1) gidx),
      0 ≤ g.1 ∧ g.1 ≤ g.2.1 ∧ g.2.1 < (tokens.zip (spans_to_bio tokens gold TAGS)).length := by
    intro g hg
    have hwg := hwithin g (hperm.mem_iff.1 hg)
    exact ⟨Nat.zero_le _, hwg.1, by omega⟩
  have hlabO2 : ∀ g ∈ (List.insertionSort (fun a b : Nat × Nat × Str => a.1 ≤ b.1) gidx),
      g.2.2 ≠ "O".data :=
    fun g hg => entity_ne_O (hlab g (hperm.mem_iff.1 hg))
  have hfsome2 : ∀ g ∈ (List.insertionSort (fun a b : Nat × Nat × Str => a.1 ≤ b.1) gidx),
      ∀ m (hm : m < (tokens.zip (spans_to_bio tokens gold TAGS)).length),
      g.1 ≤ m → m ≤ g.2.1 →
      flatLabel (((tokens.zip (spans_to_bio tokens gold TAGS))[m]).2) = g.2.2 := by
    intro g hg m hm h1 h2
    have hgm : g ∈ gidx := hperm.mem_iff.1 hg
    have hm2 : m < tokens.length := by omega
    rw [hflatidx m hm hm2, mark_some htok hord hgold hwithin hdisj hgm hm2 h1 h2]
    rfl
  have hfnone2 : ∀ m (hm : m < (tokens.zip (spans_to_bio tokens gold TAGS)).length),
      0 ≤ m → (∀ g ∈ (List.insertionSort (fun a b : Nat × Nat × Str => a.1 ≤ b.1) gidx),
        ¬(g.1 ≤ m ∧ m ≤ g.2.1)) →
      flatLabel (((tokens.zip (spans_to_bio tokens gold TAGS))[m]).2) = "O".data := by
    intro m hm _ hnc
    have hm2 : m < tokens.length := by omega
    have hnone : ∀ g ∈ gidx, ¬(g.1 ≤ m ∧ m ≤ g.2.1) :=
      fun g hg => hnc g (hperm.mem_iff.2 hg)
    rw [hflatidx m hm hm2, mark_none htok hord hgold hwithin hm2 hnone]
    rfl
  have HF := merge_runs_main (tokens.zip (spans_to_bio tokens gold TAGS))
    (List.insertionSort (fun a b : Nat × Nat × Str => a.1 ≤ b.1) gidx) 0
    hw0 hcomb hlabO2 hfsome2 hfnone2
  have HF2 : List.Forall₂ (fun g s => s = charSpanOf tokens g)
      (List.insertionSort (fun a b : Nat × Nat × Str => a.1 ≤ b.1) gidx)
      ((mergeSpansPairs ((tokens.zip (spans_to_bio tokens gold TAGS)).drop 0)).filter
        (fun s => decide (s.2.2 ≠ "O".data))) := by
    refine HF.imp ?_
    intro g s hgs
    obtain ⟨hi, hj, hseq⟩ := hgs
    subst hseq
    have hi2 : g.1 < tokens.length := by omega
    have hj2 : g.2.1 < tokens.length := by omega
    rw [List.getElem_zip, List.getElem_zip]
    unfold charSpanOf
    rw [List.getD_eq_getElem tokens _ hi2, List.getD_eq_getElem tokens _ hj2]
  have hkey : (mergeSpansPairs (tokens.zip (spans_to_bio tokens gold TAGS))).filter
      (fun s => decide (s.2.2 ≠ "O".data)) =
      (List.insertionSort (fun a b : Nat × Nat × Str => a.1 ≤ b.1) gidx).map
        (charSpanOf tokens) := by
    have h0 := forall2_eq_map HF2
    rw [List.drop_zero] at h0
    exact h0
  have hgoldmap : gold = gidx.map (charSpanOf tokens) := by
    refine forall2_eq_map (hgold.imp ?_)
    intro g r hgr
    obtain ⟨hi, hj, hreq⟩ := hgr
    subst hreq
    unfold charSpanOf
    rw [List.getD_eq_getElem tokens _ hi, List.getD_eq_getElem tokens _ hj]
  intro s
  constructor
  · rintro ⟨hmem, hno⟩
    have hmf : s ∈ (mergeSpansPairs (tokens.zip (spans_to_bio tokens gold TAGS))).filter
        (fun s => decide (s.2.2 ≠ "O".data)) :=
      List.mem_filter.2 ⟨hmem, decide_eq_true hno⟩
    rw [hkey] at hmf
    rw [hgoldmap]
    exact (hperm.map (charSpanOf tokens)).mem_iff.1 hmf
  · intro hmem
    have hmf : s ∈ (List.insertionSort (fun a b : Nat × Nat × Str => a.1 ≤ b.1) gidx).map
        (charSpanOf tokens) := by
      rw [hgoldmap] at hmem
      exact (hperm.map (charSpanOf tokens)).mem_iff.2 hmem
    rw [← hkey] at hmf
    have h2 := List.mem_filter.1 hmf
    exact ⟨h2.1, of_decide_eq_true h2.2⟩

/-- C4 (counterexample): on the text `"1л 2л"` the training tokenizer
yields four proper, ordered tokens, and the two gold spans
`(0,2,VOLUME)` and `(3,5,VOLUME)` are non-overlapping with boundaries
aligned to token boundaries; yet the round trip merges them — the BIO
pass emits `I-VOLUME` across the gap because `prev_ent` is not reset —
so the non-`O` output is the single span `(0,5,VOLUME)` and the gold
span `(0,2,VOLUME)` is not reproduced. -/
theorem C4_counterexample :
    tokenize_with_offsets "1л 2л".data =
      [⟨"1".data, 0, 1⟩, ⟨"л".data, 1, 2⟩, ⟨"2".data, 3, 4⟩, ⟨"л".data, 4, 5⟩] ∧
    spans_to_bio (tokenize_with_offsets "1л 2л".data)
      [(0, 2, "VOLUME".data), (3, 5, "VOLUME".data)] TAGS =
      ["B-VOLUME".data, "I-VOLUME".data, "I-VOLUME".data, "I-VOLUME".data] ∧
    bio_to_spans (tokenize_with_offsets "1л 2л".data)
      (spans_to_bio (tokenize_with_offsets "1л 2л".data)
        [(0, 2, "VOLUME".data), (3, 5, "VOLUME".data)] TAGS) =
      [(0, 5, "VOLUME".data)] := by
  exact ⟨by decide, by decide, by decide⟩

theorem C4_round_trip_witness :
    ((0, 2, ("VOLUME".data : Str)) ∈
        bio_to_spans [⟨"1".data, 0, 1⟩, ⟨"л".data, 1, 2⟩]
          (spans_to_bio [⟨"1".data, 0, 1⟩, ⟨"л".data, 1, 2⟩]
            [(0, 2, "VOLUME".data)] TAGS) ∧
      (0, 2, ("VOLUME".data : Str)).2.2 ≠ "O".data) ↔
      (0, 2, ("VOLUME".data : Str)) ∈ [(0, 2, ("VOLUME".data : Str))] :=
  C4_round_trip_amended [⟨"1".data, 0, 1⟩, ⟨"л".data, 1, 2⟩]
    [(0, 1, "VOLUME".data)] [(0, 2, "VOLUME".data)]
    (by decide) (by decide) (by decide) (by decide) (by decide) (by decide)
    (List.Forall₂.cons ⟨by decide, by decide, by decide⟩ List.Forall₂.nil)
    (0, 2, "VOLUME".data)

section StackedCRFFit

/-- The three base feature variants `'A'`, `'B'`, `'C'` of
`StackedCRF`. -/
inductive Variant where
  | A
  | B
  | C
deriving DecidableEq, Repr

/-- The fatal integrity errors `StackedCRF.fit` raises (as
`RuntimeError`): an out-of-fold probability entry left `None` after
the folds, or a token-count mismatch between the OOF sequences and the
meta feature matrix of a sentence. -/
inductive FitError where
  | oofNone (k : Variant) (i : Nat)
  | lengthMismatch (i : Nat)
deriving DecidableEq, Repr

/-- A CRF marginal distribution for one token: the dict `tag → prob`,
insertion-ordered. -/
abbrev ProbDist := List (Str × ℚ)

/-- The `StackedCRF` instance state (`__init__` fields).  Builder and
model objects are opaque external sklearn values, so their types are
parameters `μ` (models) and `φ` (per-token feature dicts); the empty
dicts of `__init__` are `none`. -/
structure StackedCRFState (μ φ : Type) where
  tags : List Str
  n_splits : Nat
  random_state : Nat
  base_builders : Option (Variant → List Token → List φ)
  base_models : Option (Variant → List μ)
  meta_builder : Option (List Token → List φ)
  meta_model : Option μ

/-- `StackedCRF.__init__` (defaults `TAGS`, `5`, `42` are passed by
the caller). -/
def StackedCRF_mk (μ φ : Type) (tags : List Str) (n_splits random_state : Nat) :
    StackedCRFState μ φ :=
  ⟨tags, n_splits, random_state, none, none, none, none⟩

/-- The OOF write of one fold for one variant:
`for pos, i_sent in enumerate(va): oof_probs[k][i_sent] = probs[pos]`
(the parallel walk is a `zip`; sklearn returns one marginal sequence
per validation row). -/
def updOof (oof : List (Option (List ProbDist))) (va : List Nat)
    (probs : List (List ProbDist)) : List (Option (List ProbDist)) :=
  (va.zip probs).foldl (fun o p => o.set p.1 (some p.2)) oof

/-- One iteration of the fold loop of `StackedCRF.fit`: build features
for the training and validation rows, train the three variant models,
predict marginals on the validation rows and store them out-of-fold,
then append the fold's models. -/
def foldOnce {μ φ : Type}
    (crfFit : Variant → List (List φ) → List (List Str) → μ)
    (predict : μ → List (List φ) → List (List ProbDist))
    (feats : Variant → List Token → List φ)
    (sents : List (List Token)) (y : List (List Str))
    (tr va : List Nat)
    (acc : (Variant → List (Option (List ProbDist))) × (Variant → List μ)) :
    (Variant → List (Option (List ProbDist))) × (Variant → List μ) :=
  let X_tr := fun k => tr.map (fun i => feats k (sents.getD i []))
  let X_va := fun k => va.map (fun i => feats k (sents.getD i []))
  let y_tr := tr.map (fun i => y.getD i [])
  let modelsFold := fun k => crfFit k (X_tr k) y_tr
  (fun k => updOof (acc.1 k) va (predict (modelsFold k) (X_va k)),
   fun k => acc.2 k ++ [modelsFold k])

/-- The whole fold loop, from the `None`-filled OOF store and the
fresh `{k: [] for k in 'ABC'}` model store; the `KFold` row split is
external and passed in. -/
def fitFolds {μ φ : Type}
    (crfFit : Variant → List (List φ) → List (List Str) → μ)
    (predict : μ → List (List φ) → List (List ProbDist))
    (feats : Variant → List Token → List φ)
    (sents : List (List Token)) (y : List (List Str))
    (split : List (List Nat × List Nat)) (n : Nat) :
    (Variant → List (Option (List ProbDist))) × (Variant → List μ) :=
  split.foldl (fun acc f => foldOnce crfFit predict feats sents y f.1 f.2 acc)
    (fun _ => List.replicate n none, fun _ => [])

/-- First index holding `None`, if any: the sanity-check scan
`for i, seq in enumerate(oof_probs[k]): if seq is None: raise`. -/
def firstNoneIdx {α : Type} : List (Option α) → Option Nat
  | [] => none
  | none :: _ => some 0
  | some _ :: rest => (firstNoneIdx rest).map (fun n => n + 1)

/-- The post-fold sanity check, `for k in 'ABC'` outermost: the first
variant with a `None` entry raises. -/
def oofCheck (oof : Variant → List (Option (List ProbDist))) : Option FitError :=
  match firstNoneIdx (oof Variant.A) with
  | some i => some (FitError.oofNone Variant.A i)
  | none =>
    match firstNoneIdx (oof Variant.B) with
    | some i => some (FitError.oofNone Variant.B i)
    | none =>
      match firstNoneIdx (oof Variant.C) with
      | some i => some (FitError.oofNone Variant.C i)
      | none => none

/-- `p.get(tag, 0.0)`: dict lookup with default `0`. -/
def dictGet (d : ProbDist) (key : Str) : ℚ :=
  match d.find? (fun kv => decide (kv.1 = key)) with
  | some kv => kv.2
  | none => 0

/-- `_probs_as_features`: per token the dict
`{f'{prefix}:{tag}': float(p.get(tag, 0.0)) for tag in self.tags}`. -/
def probs_as_features (tags : List Str) (probs_seq : List ProbDist) (pfx : Str) :
    List ProbDist :=
  probs_seq.map (fun p => tags.map (fun tag => (pfx ++ ':' :: tag, dictGet p tag)))

/-- The meta-feature loop of `fit` over sentence indices: per sentence
the token-count check (`len(oofA[i]) == len(oofB[i]) == len(oofC[i]) ==
n_tokens`) raises `lengthMismatch i` on disagreement, else the meta
builder's dict is merged with the three prefixed probability blocks
(`_merge_feature_dicts`; the prefixed keys are fresh, so the dict
update is adjunction, modelled as tupling per token).  When this loop
runs the sanity check has already ruled out `None` entries, so the
`Option.getD []` unwrap is never taken. -/
def buildMetaAux {φ : Type} (tags : List Str) (metaF : List Token → List φ)
    (oofA oofB oofC : List (Option (List ProbDist))) :
    Nat → List (List Token) →
    Except FitError (List (List (φ × ProbDist × ProbDist × ProbDist)))
  | _, [] => Except.ok []
  | i, sent :: rest =>
    let base_feats := metaF sent
    let a := (oofA.getD i none).getD []
    let b := (oofB.getD i none).getD []
    let c := (oofC.getD i none).getD []
    if a.length = b.length ∧ b.length = c.length ∧ c.length = base_feats.length then
      let pa := probs_as_features tags a "A".data
      let pb := probs_as_features tags b "B".data
      let pc := probs_as_features tags c "C".data
      let mix := (base_feats.zip (pa.zip (pb.zip pc))).map
        (fun q => (q.1, q.2.1, q.2.2.1, q.2.2.2))
      match buildMetaAux tags metaF oofA oofB oofC (i + 1) rest with
      | Except.ok rows => Except.ok (mix :: rows)
      | Except.error e => Except.error e
    else
      Except.error (FitError.lengthMismatch i)

/-- `StackedCRF.fit`, embedded over the external sklearn parts: the
`KFold` split, CRF training (`crfFit` for the base variants,
`crfFitMeta` for the meta model) and marginal prediction `predict`,
and the lexicon-built feature builders (`feats` for variants A/B/C,
`metaF` for the meta layer; their construction from `build_lexicons`
is the external part).  The result is the instance state after the
call together with the raised error, if any: the method mutates `self`
as it goes, so on a raise the mutations already performed remain. -/
def StackedCRF_fit {μ φ : Type}
    (crfFit : Variant → List (List φ) → List (List Str) → μ)
    (crfFitMeta : List (List (φ × ProbDist × ProbDist × ProbDist)) → List (List Str) → μ)
    (predict : μ → List (List φ) → List (List ProbDist))
    (feats : Variant → List Token → List φ)
    (metaF : List Token → List φ)
    (split : List (List Nat × List Nat))
    (st : StackedCRFState μ φ)
    (texts : List Str) (spans_list : List (List (Nat × Nat × Str))) :
    StackedCRFState μ φ × Option FitError :=
  let sents := texts.map tokenize_with_offsets
  let y := (sents.zip spans_list).map (fun p => spans_to_bio p.1 p.2 TAGS)
  let res := fitFolds crfFit predict feats sents y split sents.length
  let st2 : StackedCRFState μ φ :=
    { st with base_builders := some feats, meta_builder := some metaF,
              base_models := some res.2 }
  match oofCheck res.1 with
  | some e => (st2, some e)
  | none =>
    match buildMetaAux st.tags metaF (res.1 Variant.A) (res.1 Variant.B)
        (res.1 Variant.C) 0 sents with
    | Except.error e => (st2, some e)
    | Except.ok X_meta => ({ st2 with meta_model := some (crfFitMeta X_meta y) }, none)

end StackedCRFFit

section StackedCRFLemmas

/-- Each fold appends exactly one model per variant. -/
theorem foldOnce_models_length {μ φ : Type}
    (crfFit : Variant → List (List φ) → List (List Str) → μ)
    (predict : μ → List (List φ) → List (List ProbDist))
    (feats : Variant → List Token → List φ)
    (sents : List (List Token)) (y : List (List Str))
    (tr va : List Nat)
    (acc : (Variant → List (Option (List ProbDist))) × (Variant → List μ)) (k : Variant) :
    ((foldOnce crfFit predict feats sents y tr va acc).2 k).length = (acc.2 k).length + 1 := by
  show (acc.2 k ++ [_]).length = (acc.2 k).length + 1
  rw [List.length_append]
  rfl

/-- After the fold loop each variant holds one model per fold. -/
theorem foldl_models_length {μ φ : Type}
    (crfFit : Variant → List (List φ) → List (List Str) → μ)
    (predict : μ → List (List φ) → List (List ProbDist))
    (feats : Variant → List Token → List φ)
    (sents : List (List Token)) (y : List (List Str)) (k : Variant) :
    ∀ (split : List (List Nat × List Nat))
      (acc : (Variant → List (Option (List ProbDist))) × (Variant → List μ)),
      ((split.foldl (fun acc f => foldOnce crfFit predict feats sents y f.1 f.2 acc) acc).2
        k).length = (acc.2 k).length + split.length := by
  intro split
  induction split with
  | nil => intro acc; rfl
  | cons f rest ih =>
    intro acc
    rw [List.foldl_cons, ih, foldOnce_models_length]
    rw [List.length_cons]
    omega

/-- `updOof` leaves entries outside the validation rows unchanged. -/
theorem updOof_not_mem (i : Nat) :
    ∀ (va : List Nat) (probs : List (List ProbDist)) (oof : List (Option (List ProbDist))),
      i ∉ va → (updOof oof va probs)[i]? = oof[i]? := by
  intro va
  induction va with
  | nil => intro probs oof _; rfl
  | cons a va' ih =>
    intro probs oof h
    cases probs with
    | nil => rfl
    | cons p probs' =>
      show (updOof (oof.set a (some p)) va' probs')[i]? = oof[i]?
      rw [ih probs' _ (fun hmem => h (List.mem_cons_of_mem _ hmem))]
      exact List.getElem?_set_ne
        (fun heq => h (by rw [← heq]; exact List.mem_cons_self a va'))

/-- The fold loop leaves the OOF entry of a row covered by no fold's
validation set unchanged. -/
theorem foldl_oof_not_covered {μ φ : Type}
    (crfFit : Variant → List (List φ) → List (List Str) → μ)
    (predict : μ → List (List φ) → List (List ProbDist))
    (feats : Variant → List Token → List φ)
    (sents : List (List Token)) (y : List (List Str)) (k : Variant) (i : Nat) :
    ∀ (split : List (List Nat × List Nat))
      (acc : (Variant → List (Option (List ProbDist))) × (Variant → List μ)),
      (∀ f ∈ split, i ∉ f.2) →
      ((split.foldl (fun acc f => foldOnce crfFit predict feats sents y f.1 f.2 acc) acc).1
        k)[i]? = (acc.1 k)[i]? := by
  intro split
  induction split with
  | nil => intro acc _; rfl
  | cons f rest ih =>
    intro acc hnc
    rw [List.foldl_cons, ih _ (fun f2 hf2 => hnc f2 (List.mem_cons_of_mem _ hf2))]
    show (updOof (acc.1 k) f.2 _)[i]? = (acc.1 k)[i]?
    exact updOof_not_mem i f.2 _ (acc.1 k) (hnc f (List.mem_cons_self _ _))

/-- A list with a `none` entry has a first `none` index. -/
theorem firstNoneIdx_of_none {α : Type} :
    ∀ (l : List (Option α)) (i : Nat), l[i]? = some none →
      ∃ j, firstNoneIdx l = some j := by
  intro l
  induction l with
  | nil => intro i h; exact Option.noConfusion h
  | cons o rest ih =>
    intro i h
    cases o with
    | none => exact ⟨0, rfl⟩
    | some a =>
      cases i with
      | zero =>
        rw [List.getElem?_cons_zero] at h
        exact absurd (Option.some.inj h) (by simp)
      | succ i2 =>
        rw [List.getElem?_cons_succ] at h
        obtain ⟨j, hj⟩ := ih i2 h
        refine ⟨j + 1, ?_⟩
        show (firstNoneIdx rest).map (fun n => n + 1) = some (j + 1)
        rw [hj]
        rfl

/-- When the meta loop succeeds, every sentence passed the token-count
check. -/
theorem buildMetaAux_ok_agree {φ : Type} (tags : List Str) (metaF : List Token → List φ)
    (oofA oofB oofC : List (Option (List ProbDist))) :
    ∀ (sents : List (List Token)) (i : Nat)
      (rows : List (List (φ × ProbDist × ProbDist × ProbDist))),
      buildMetaAux tags metaF oofA oofB oofC i sents = Except.ok rows →
      ∀ d, d < sents.length →
        ((oofA.getD (i + d) none).getD []).length =
            ((oofB.getD (i + d) none).getD []).length ∧
          ((oofB.getD (i + d) none).getD []).length =
            ((oofC.getD (i + d) none).getD []).length ∧
          ((oofC.getD (i + d) none).getD []).length =
            (metaF (sents.getD d [])).length := by
  intro sents
  induction sents with
  | nil =>
    intro i rows _ d hd
    exact absurd hd (by simp)
  | cons sent rest ih =>
    intro i rows hok d hd
    rw [buildMetaAux] at hok
    by_cases hc : ((oofA.getD i none).getD []).length = ((oofB.getD i none).getD []).length ∧
        ((oofB.getD i none).getD []).length = ((oofC.getD i none).getD []).length ∧
        ((oofC.getD i none).getD []).length = (metaF sent).length
    · rw [if_pos hc] at hok
      cases d with
      | zero => exact hc
      | succ d2 =>
        cases hrec : buildMetaAux tags metaF oofA oofB oofC (i + 1) rest with
        | error e => rw [hrec] at hok; exact Except.noConfusion hok
        | ok rows2 =>
          have := ih (i + 1) rows2 hrec d2 (by simp at hd; omega)
          rw [show i + 1 + d2 = i + (d2 + 1) from by omega] at this
          exact this
    · rw [if_neg hc] at hok
      exact Except.noConfusion hok

end StackedCRFLemmas

/-- C5 (amended): calling `fit` on a freshly initialised `StackedCRF`,
a data-integrity failure — an out-of-fold coverage gap or a
token-count mismatch with the meta feature matrix — raises a fatal
error, and no meta model is published (`meta_model` stays `None`); in
particular a sentence covered by no fold's validation rows forces the
error, as does a failed token-count check.  But the fitted state IS
partially produced: the error is raised only after the base layer has
been stored on the instance — the three variant feature builders, the
meta builder, and one trained base model per variant per fold — which
refutes the claim's "not even partially" (see `C5_counterexample`). -/
theorem C5_fit_amended {μ φ : Type}
    (crfFit : Variant → List (List φ) → List (List Str) → μ)
    (crfFitMeta : List (List (φ × ProbDist × ProbDist × ProbDist)) → List (List Str) → μ)
    (predict : μ → List (List φ) → List (List ProbDist))
    (feats : Variant → List Token → List φ)
    (metaF : List Token → List φ)
    (split : List (List Nat × List Nat))
    (texts : List Str) (spans_list : List (List (Nat × Nat × Str)))
    (tags : List Str) (n_splits random_state : Nat)
    (sents : List (List Token)) (hsents : sents = texts.map tokenize_with_offsets)
    (y : List (List Str))
    (hy : y = (sents.zip spans_list).map (fun p => spans_to_bio p.1 p.2 TAGS))
    (res : (Variant → List (Option (List ProbDist))) × (Variant → List μ))
    (hres : res = fitFolds crfFit predict feats sents y split sents.length)
    (r : StackedCRFState μ φ × Option FitError)
    (hr : r = StackedCRF_fit crfFit crfFitMeta predict feats metaF split
      (StackedCRF_mk μ φ tags n_splits random_state) texts spans_list) :
    (∀ e, r.2 = some e → r.1.meta_model = none) ∧
    r.1.base_builders = some feats ∧
    r.1.meta_builder = some metaF ∧
    (∃ ms, r.1.base_models = some ms ∧ ∀ k, (ms k).length = split.length) ∧
    ((∃ i, i < texts.length ∧ ∀ f ∈ split, i ∉ f.2) → ∃ e, r.2 = some e) ∧
    ((∃ d, d < sents.length ∧
        ¬((((res.1 Variant.A).getD d none).getD []).length =
            (((res.1 Variant.B).getD d none).getD []).length ∧
          (((res.1 Variant.B).getD d none).getD []).length =
            (((res.1 Variant.C).getD d none).getD []).length ∧
          (((res.1 Variant.C).getD d none).getD []).length =
            (metaF (sents.getD d [])).length)) → ∃ e, r.2 = some e) ∧
    (r.2 = none → ∃ m, r.1.meta_model = some m) := by
  subst hsents hy hres hr
  cases hoc : oofCheck ((fitFolds crfFit predict feats (texts.map tokenize_with_offsets)
      (((texts.map tokenize_with_offsets).zip spans_list).map
        (fun p => spans_to_bio p.1 p.2 TAGS)) split
      (texts.map tokenize_with_offsets).length).1) with
  | some e0 =>
    refine ⟨?_, ?_, ?_, ?_, ?_, ?_, ?_⟩
    · intro e _
      simp only [StackedCRF_fit, hoc]
      rfl
    · simp only [StackedCRF_fit, hoc]
    · simp only [StackedCRF_fit, hoc]
    · simp only [StackedCRF_fit, hoc]
      refine ⟨_, rfl, ?_⟩
      intro k
      show ((fitFolds crfFit predict feats _ _ split _).2 k).length = split.length
      unfold fitFolds
      rw [foldl_models_length]
      show 0 + split.length = split.length
      exact Nat.zero_add _
    · intro _
      refine ⟨e0, ?_⟩
      simp only [StackedCRF_fit, hoc]
    · intro _
      refine ⟨e0, ?_⟩
      simp only [StackedCRF_fit, hoc]
    · intro hcon
      simp only [StackedCRF_fit, hoc] at hcon
      exact Option.noConfusion hcon
  | none =>
    cases hbm : buildMetaAux (StackedCRF_mk μ φ tags n_splits random_state).tags metaF
        ((fitFolds crfFit predict feats (texts.map tokenize_with_offsets)
          (((texts.map tokenize_with_offsets).zip spans_list).map
            (fun p => spans_to_bio p.1 p.2 TAGS)) split
          (texts.map tokenize_with_offsets).length).1 Variant.A)
        ((fitFolds crfFit predict feats (texts.map tokenize_with_offsets)
          (((texts.map tokenize_with_offsets).zip spans_list).map
            (fun p => spans_to_bio p.1 p.2 TAGS)) split
          (texts.map tokenize_with_offsets).length).1 Variant.B)
        ((fitFolds crfFit predict feats (texts.map tokenize_with_offsets)
          (((texts.map tokenize_with_offsets).zip spans_list).map
            (fun p => spans_to_bio p.1 p.2 TAGS)) split
          (texts.map tokenize_with_offsets).length).1 Variant.C)
        0 (texts.map tokenize_with_offsets) with
    | error e0 =>
      refine ⟨?_, ?_, ?_, ?_, ?_, ?_, ?_⟩
      · intro e _
        simp only [StackedCRF_fit, hoc, hbm]
        rfl
      · simp only [StackedCRF_fit, hoc, hbm]
      · simp only [StackedCRF_fit, hoc, hbm]
      · simp only [StackedCRF_fit, hoc, hbm]
        refine ⟨_, rfl, ?_⟩
        intro k
        show ((fitFolds crfFit predict feats _ _ split _).2 k).length = split.length
        unfold fitFolds
        rw [foldl_models_length]
        show 0 + split.length = split.length
        exact Nat.zero_add _
      · intro _
        refine ⟨e0, ?_⟩
        simp only [StackedCRF_fit, hoc, hbm]
      · intro _
        refine ⟨e0, ?_⟩
        simp only [StackedCRF_fit, hoc, hbm]
      · intro hcon
        simp only [StackedCRF_fit, hoc, hbm] at hcon
        exact Option.noConfusion hcon
    | ok rows =>
      refine ⟨?_, ?_, ?_, ?_, ?_, ?_, ?_⟩
      · intro e hcon
        simp only [StackedCRF_fit, hoc, hbm] at hcon
        exact Option.noConfusion hcon
      · simp only [StackedCRF_fit, hoc, hbm]
      · simp only [StackedCRF_fit, hoc, hbm]
      · simp only [StackedCRF_fit, hoc, hbm]
        refine ⟨_, rfl, ?_⟩
        intro k
        show ((fitFolds crfFit predict feats _ _ split _).2 k).length = split.length
        unfold fitFolds
        rw [foldl_models_length]
        show 0 + split.length = split.length
        exact Nat.zero_add _
      · intro hex
        obtain ⟨i, hi, hcov⟩ := hex
        exfalso
        have hp : ((fitFolds crfFit predict feats (texts.map tokenize_with_offsets)
            (((texts.map tokenize_with_offsets).zip spans_list).map
              (fun p => spans_to_bio p.1 p.2 TAGS)) split
            (texts.map tokenize_with_offsets).length).1 Variant.A)[i]? = some none := by
          unfold fitFolds
          rw [foldl_oof_not_covered crfFit predict feats _ _ Variant.A i split _ hcov]
          show (List.replicate (texts.map tokenize_with_offsets).length
            (none : Option (List ProbDist)))[i]? = some none
          rw [List.getElem?_replicate, if_pos (by rw [List.length_map]; exact hi)]
        obtain ⟨j, hj⟩ := firstNoneIdx_of_none _ i hp
        have hsome : oofCheck ((fitFolds crfFit predict feats (texts.map tokenize_with_offsets)
            (((texts.map tokenize_with_offsets).zip spans_list).map
              (fun p => spans_to_bio p.1 p.2 TAGS)) split
            (texts.map tokenize_with_offsets).length).1) =
            some (FitError.oofNone Variant.A j) := by
          unfold oofCheck
          rw [hj]
        rw [hoc] at hsome
        exact Option.noConfusion hsome
      · intro hex
        obtain ⟨d, hd, hdis⟩ := hex
        exfalso
        have hag := buildMetaAux_ok_agree
          (StackedCRF_mk μ φ tags n_splits random_state).tags metaF _ _ _
          (texts.map tokenize_with_offsets) 0 rows hbm d hd
        rw [Nat.zero_add] at hag
        exact hdis hag
      · intro _
        simp only [StackedCRF_fit, hoc, hbm]
        exact ⟨_, rfl⟩

/-- C5 (counterexample to "not even partially produced"): one sentence,
one fold whose validation rows are empty, so the OOF store keeps a
`None` and `fit` raises the integrity error — yet the returned instance
state already holds the variant feature builders, the meta builder and
one trained base model per variant: the fitted state is partially
produced.  Only the meta model is withheld. -/
theorem C5_counterexample :
    (StackedCRF_fit (fun _ _ _ => (0 : Nat)) (fun _ _ => (0 : Nat))
        (fun _ X => X.map (fun _ => ([] : List ProbDist)))
        (fun _ s => s.map (fun _ => (0 : Nat))) (fun s => s.map (fun _ => (0 : Nat)))
        [([0], [])] (StackedCRF_mk Nat Nat TAGS 5 42) ["1л".data] [[]]).2 =
      some (FitError.oofNone Variant.A 0) ∧
    (StackedCRF_fit (fun _ _ _ => (0 : Nat)) (fun _ _ => (0 : Nat))
        (fun _ X => X.map (fun _ => ([] : List ProbDist)))
        (fun _ s => s.map (fun _ => (0 : Nat))) (fun s => s.map (fun _ => (0 : Nat)))
        [([0], [])] (StackedCRF_mk Nat Nat TAGS 5 42) ["1л".data] [[]]).1.meta_model =
      none ∧
    (∃ ms, (StackedCRF_fit (fun _ _ _ => (0 : Nat)) (fun _ _ => (0 : Nat))
        (fun _ X => X.map (fun _ => ([] : List ProbDist)))
        (fun _ s => s.map (fun _ => (0 : Nat))) (fun s => s.map (fun _ => (0 : Nat)))
        [([0], [])] (StackedCRF_mk Nat Nat TAGS 5 42) ["1л".data] [[]]).1.base_models =
      some ms ∧ ms Variant.A = [0]) ∧
    ((StackedCRF_fit (fun _ _ _ => (0 : Nat)) (fun _ _ => (0 : Nat))
        (fun _ X => X.map (fun _ => ([] : List ProbDist)))
        (fun _ s => s.map (fun _ => (0 : Nat))) (fun s => s.map (fun _ => (0 : Nat)))
        [([0], [])] (StackedCRF_mk Nat Nat TAGS 5 42) ["1л".data] [[]]).1.base_builders).isSome
      = true ∧
    ((StackedCRF_fit (fun _ _ _ => (0 : Nat)) (fun _ _ => (0 : Nat))
        (fun _ X => X.map (fun _ => ([] : List ProbDist)))
        (fun _ s => s.map (fun _ => (0 : Nat))) (fun s => s.map (fun _ => (0 : Nat)))
        [([0], [])] (StackedCRF_mk Nat Nat TAGS 5 42) ["1л".data] [[]]).1.meta_builder).isSome
      = true :=
  ⟨rfl, rfl, ⟨_, rfl, rfl⟩, rfl, rfl⟩

theorem C5_fit_witness :
    ∃ ms : Variant → List Nat,
      (StackedCRF_fit (fun _ _ _ => (0 : Nat)) (fun _ _ => (0 : Nat))
        (fun _ X => X.map (fun _ => ([] : List ProbDist)))
        (fun _ s => s.map (fun _ => (0 : Nat))) (fun s => s.map (fun _ => (0 : Nat)))
        [([0], [])] (StackedCRF_mk Nat Nat TAGS 5 42) ["1л".data]
        ([[]] : List (List (Nat × Nat × Str)))).1.base_models = some ms ∧
      ∀ k, (ms k).length = 1 :=
  (C5_fit_amended
    (fun _ _ _ => (0 : Nat)) (fun _ _ => (0 : Nat))
    (fun _ X => X.map (fun _ => ([] : List ProbDist)))
    (fun _ s => s.map (fun _ => (0 : Nat)))
    (fun s => s.map (fun _ => (0 : Nat)))
    [([0], [])] ["1л".data] ([[]] : List (List (Nat × Nat × Str))) TAGS 5 42
    (["1л".data].map tokenize_with_offsets) rfl
    (((["1л".data].map tokenize_with_offsets).zip ([[]] : List (List (Nat × Nat × Str)))).map
      (fun p => spans_to_bio p.1 p.2 TAGS)) rfl
    (fitFolds (fun _ _ _ => (0 : Nat)) (fun _ X => X.map (fun _ => ([] : List ProbDist)))
      (fun _ s => s.map (fun _ => (0 : Nat)))
      (["1л".data].map tokenize_with_offsets)
      (((["1л".data].map tokenize_with_offsets).zip
        ([[]] : List (List (Nat × Nat × Str)))).map
        (fun p => spans_to_bio p.1 p.2 TAGS))
      [([0], [])] (["1л".data].map tokenize_with_offsets).length) rfl
    (StackedCRF_fit (fun _ _ _ => (0 : Nat)) (fun _ _ => (0 : Nat))
      (fun _ X => X.map (fun _ => ([] : List ProbDist)))
      (fun _ s => s.map (fun _ => (0 : Nat))) (fun s => s.map (fun _ => (0 : Nat)))
      [([0], [])] (StackedCRF_mk Nat Nat TAGS 5 42) ["1л".data]
      ([[]] : List (List (Nat × Nat × Str)))) rfl).2.2.2.1
